import Mathlib

/-!
Shallow embedding of the maze generator in `src/main.rs` (a Rust program
that generates a perfect maze by randomized depth-first backtracking on a
10×10 grid, rasterizes it and writes a binary PPM file), together with
theorems checking the natural-language specification against the code.

Randomness is injected: the shuffled direction list consumed by each call
of `unvisited_neighbors` is read from an explicit stream `σ : Nat → List
NeighborDir`, and the initial random cell is an explicit pair of
arguments.  Panics (`assert!`, `unreachable!`, array and usize underflow
checks) are modelled by `Option`/`Except` error results.
-/

namespace MazeRs

/-- `struct Cell { row, col: usize, visited: bool }` from the source. -/
structure Cell where
  row : Nat
  col : Nat
  visited : Bool
  deriving DecidableEq, Repr

/-- `const MAZE_SIZE: usize = 10`. -/
def MAZE_SIZE : Nat := 10

/-- `Cell::ind`: `self.row * MAZE_SIZE + self.col`. -/
def Cell.ind (c : Cell) : Nat := c.row * MAZE_SIZE + c.col

/-- `enum NeighborDir { Center, North, South, West, East }`. -/
inductive NeighborDir where
  | Center
  | North
  | South
  | West
  | East
  deriving DecidableEq, Repr

/-- `enum WallKind { Vertical, Horizontal }`. -/
inductive WallKind where
  | Vertical
  | Horizontal
  deriving DecidableEq, Repr

/-- `struct Wall { start: Cell, target: Cell, kind: WallKind }`. -/
structure Wall where
  start : Cell
  target : Cell
  kind : WallKind
  deriving DecidableEq, Repr

/-- The grid `[[Cell; MAZE_SIZE]; MAZE_SIZE]`, as a total function on
coordinates; the program only ever reads indices below `MAZE_SIZE`. -/
abbrev Grid := Nat → Nat → Cell

/-- `struct Env { grid, removed_walls }`. -/
structure Env where
  grid : Grid
  removed_walls : List Wall

/-- `Env::init`: every cell `(r, c)` holds `{row: r, col: c, visited: false}`,
and the wall list is empty. -/
def Env.init : Env where
  grid := fun r c => { row := r, col := c, visited := false }
  removed_walls := []

/-- `fn in_bound(val, low, high) -> bool { (val >= low) && (val < high) }`.
The Rust call sites pass `i32` values (a `usize` coordinate may have been
decremented below zero after the cast), hence `Int`. -/
def in_bound (val low high : Int) : Bool :=
  decide (val ≥ low) && decide (val < high)

/-- The coordinate offset of each direction, from the `match` inside
`unvisited_neighbors` (`North` ⇒ row−1, `South` ⇒ row+1, `West` ⇒ col−1,
`East` ⇒ col+1).  `Center` hits `unreachable!` there, modelled by `none`. -/
def dirDelta : NeighborDir → Option (Int × Int)
  | .North => some (-1, 0)
  | .South => some (1, 0)
  | .West => some (0, -1)
  | .East => some (0, 1)
  | .Center => none

/-- The direction list the source shuffles: `[North, South, East, West]`. -/
def baseDirs : List NeighborDir := [.North, .South, .East, .West]

/-- The test applied to one direction inside the loop of
`unvisited_neighbors`: the stepped position is in `[0, MAZE_SIZE)` on both
axes and the cell there is not yet visited. -/
def dirOk (grid : Grid) (row col : Nat) (el : NeighborDir) : Bool :=
  match dirDelta el with
  | none => false
  | some (dr, dc) =>
      let new_row : Int := (row : Int) + dr
      let new_col : Int := (col : Int) + dc
      in_bound new_row 0 (MAZE_SIZE : Int) && in_bound new_col 0 (MAZE_SIZE : Int)
        && !(grid new_row.toNat new_col.toNat).visited

/-- The loop of `fn unvisited_neighbors`: scan the (already shuffled)
direction list and return the first direction whose stepped cell is
in-bounds and unvisited, `Center` if the list is exhausted.  `none` models
the `unreachable!` panic taken if `Center` itself were in the list. -/
def unvisited_neighbors (grid : Grid) (row col : Nat) :
    List NeighborDir → Option NeighborDir
  | [] => some .Center
  | el :: rest =>
      match dirDelta el with
      | none => none
      | some (dr, dc) =>
          let new_row : Int := (row : Int) + dr
          let new_col : Int := (col : Int) + dc
          if in_bound new_row 0 (MAZE_SIZE : Int) && in_bound new_col 0 (MAZE_SIZE : Int)
              && !(grid new_row.toNat new_col.toNat).visited then
            some el
          else
            unvisited_neighbors grid row col rest

/-- `fn remove_wall(walls, start, target)`.  `none` models the
`assert!(start.ind() != target.ind())` failure (the process aborts and the
wall list is left unchanged).  Note on the two `push` branches: in the Rust
source they read `walls.push(Wall { target, start, kind })` and
`walls.push(Wall { start, target, kind })`; by Rust's field-init shorthand
both initializers assign field `start` from the local `start` and field
`target` from the local `target`, so the two branches push the identical
record and no endpoint exchange takes place. -/
def remove_wall (walls : List Wall) (start target : Cell) : Option (List Wall) :=
  if start.ind = target.ind then
    none
  else
    let row_diff : Int := (start.row : Int) - (target.row : Int)
    let col_diff : Int := (start.col : Int) - (target.col : Int)
    let kind : WallKind := if row_diff ≠ 0 then .Vertical else .Horizontal
    if row_diff > 0 ∨ col_diff > 0 then
      some (walls ++ [{ start := start, target := target, kind := kind }])
    else if row_diff < 0 ∨ col_diff < 0 then
      some (walls ++ [{ start := start, target := target, kind := kind }])
    else
      some walls

/-! ### Behaviour of `remove_wall` -/

/-- For in-range, distinct cells, both `push` branches of `remove_wall`
append the same single record `{start := a, target := b}` (Rust field-init
shorthand), with `kind` decided by whether the rows differ. -/
theorem remove_wall_eq (walls : List Wall) (a b : Cell)
    (hac : a.col < MAZE_SIZE) (hbc : b.col < MAZE_SIZE)
    (hne : ¬(a.row = b.row ∧ a.col = b.col)) :
    remove_wall walls a b =
      some (walls ++ [{ start := a, target := b,
                        kind := if a.row ≠ b.row then .Vertical else .Horizontal }]) := by
  have hind : a.ind ≠ b.ind := by
    simp only [Cell.ind, MAZE_SIZE] at *
    omega
  simp only [remove_wall, if_neg hind]
  have hkind : (if ((a.row : Int) - (b.row : Int)) ≠ 0 then WallKind.Vertical else WallKind.Horizontal)
      = (if a.row ≠ b.row then WallKind.Vertical else WallKind.Horizontal) :=
    if_congr (by omega) rfl rfl
  rw [hkind]
  by_cases hC1 : ((a.row : Int) - (b.row : Int) > 0 ∨ (a.col : Int) - (b.col : Int) > 0)
  · rw [if_pos hC1]
  · obtain ⟨hC1a, hC1b⟩ := not_or.mp hC1
    have hC3 : ((a.row : Int) - (b.row : Int) < 0 ∨ (a.col : Int) - (b.col : Int) < 0) := by
      rcases eq_or_ne a.row b.row with h | h
      · have hcol : a.col ≠ b.col := fun hc => hne ⟨h, hc⟩
        omega
      · omega
    rw [if_neg hC1, if_pos hC3]

/-- C2 (code_bug evidence): a North expansion from cell `(1,0)` to cell
`(0,0)` — the expanding cell has the strictly greater row, so the spec's
§4.4 convention demands the record `{start: (0,0), target: (1,0)}` — but
the code appends `{start: (1,0), target: (0,0)}`: Rust's field-init
shorthand makes the `row_diff > 0` branch push the unswapped record. -/
theorem remove_wall_no_swap_on_north_move :
    remove_wall [] { row := 1, col := 0, visited := false } { row := 0, col := 0, visited := false }
      = some [{ start := { row := 1, col := 0, visited := false },
                target := { row := 0, col := 0, visited := false },
                kind := .Vertical }]
    ∧ (0 : Nat) < 1 := by
  refine ⟨?_, by decide⟩
  decide

/-- C5: `remove_wall` hits its `assert!` (modelled by `none`, the wall list
being returned unchanged only inside the `some` branches) exactly when the
two in-range cells coincide; for distinct cells the assertion passes. -/
theorem remove_wall_aborts_iff_same_cell (walls : List Wall) (a b : Cell)
    (ha : a.row < MAZE_SIZE ∧ a.col < MAZE_SIZE)
    (hb : b.row < MAZE_SIZE ∧ b.col < MAZE_SIZE) :
    remove_wall walls a b = none ↔ (a.row = b.row ∧ a.col = b.col) := by
  constructor
  · intro h
    by_contra hne
    rw [remove_wall_eq walls a b ha.2 hb.2 hne] at h
    exact Option.noConfusion h
  · rintro ⟨h1, h2⟩
    have hind : a.ind = b.ind := by simp [Cell.ind, h1, h2]
    simp [remove_wall, hind]

/-- C5 witness. -/
theorem remove_wall_aborts_iff_same_cell_witness :
    remove_wall [] { row := 0, col := 0, visited := false } { row := 0, col := 1, visited := false }
        = none
      ↔ ((0 : Nat) = 0 ∧ (0 : Nat) = 1) :=
  remove_wall_aborts_iff_same_cell []
    { row := 0, col := 0, visited := false } { row := 0, col := 1, visited := false }
    (by decide) (by decide)

/-- C10: on distinct in-range cells, `remove_wall` appends exactly one
wall, identical in both branches: `start` is the first argument (the cell
expanded from), `target` the second (the newly discovered cell), `kind` is
`Vertical` when the rows differ and `Horizontal` otherwise (the cols
differ); the roles of the two arguments are never exchanged. -/
theorem remove_wall_appends_unswapped (walls : List Wall) (a b : Cell)
    (ha : a.row < MAZE_SIZE ∧ a.col < MAZE_SIZE)
    (hb : b.row < MAZE_SIZE ∧ b.col < MAZE_SIZE)
    (hne : ¬(a.row = b.row ∧ a.col = b.col)) :
    remove_wall walls a b =
      some (walls ++ [{ start := a, target := b,
                        kind := if a.row ≠ b.row then .Vertical else .Horizontal }]) :=
  remove_wall_eq walls a b ha.2 hb.2 hne

/-- C10 witness. -/
theorem remove_wall_appends_unswapped_witness :
    remove_wall [] { row := 0, col := 0, visited := false } { row := 0, col := 1, visited := false }
      = some [{ start := { row := 0, col := 0, visited := false },
                target := { row := 0, col := 1, visited := false },
                kind := if (0 : Nat) ≠ 0 then .Vertical else .Horizontal }] :=
  remove_wall_appends_unswapped []
    { row := 0, col := 0, visited := false } { row := 0, col := 1, visited := false }
    (by decide) (by decide) (by decide)

/-! ### Behaviour of `unvisited_neighbors` -/

/-- Scanning the shuffled list returns the first direction passing the
in-bounds-and-unvisited test, `Center` when none does (assuming no
`Center` entry, hence no `unreachable!`). -/
theorem unvisited_neighbors_eq_find (grid : Grid) (row col : Nat) :
    ∀ dirs : List NeighborDir, NeighborDir.Center ∉ dirs →
      unvisited_neighbors grid row col dirs
        = some ((dirs.find? (dirOk grid row col)).getD .Center)
  | [], _ => rfl
  | el :: rest, h => by
      have hel : el ≠ NeighborDir.Center := by
        intro he; exact h (he ▸ List.mem_cons_self el rest)
      have hrest : NeighborDir.Center ∉ rest := fun hr => h (List.mem_cons_of_mem _ hr)
      obtain ⟨dr, dc, hd⟩ : ∃ dr dc : Int, dirDelta el = some (dr, dc) := by
        cases el
        · exact absurd rfl hel
        · exact ⟨-1, 0, rfl⟩
        · exact ⟨1, 0, rfl⟩
        · exact ⟨0, -1, rfl⟩
        · exact ⟨0, 1, rfl⟩
      have hok : dirOk grid row col el
          = (in_bound ((row : Int) + dr) 0 (MAZE_SIZE : Int)
              && in_bound ((col : Int) + dc) 0 (MAZE_SIZE : Int)
              && !(grid ((row : Int) + dr).toNat ((col : Int) + dc).toNat).visited) := by
        simp only [dirOk, hd]
      by_cases hc : (in_bound ((row : Int) + dr) 0 (MAZE_SIZE : Int)
              && in_bound ((col : Int) + dc) 0 (MAZE_SIZE : Int)
              && !(grid ((row : Int) + dr).toNat ((col : Int) + dc).toNat).visited) = true
      · simp only [unvisited_neighbors, hd]
        rw [if_pos hc, List.find?_cons_of_pos _ (by rw [hok]; exact hc)]
        rfl
      · simp only [unvisited_neighbors, hd]
        rw [if_neg hc, List.find?_cons_of_neg _ (by rw [hok]; simpa using hc)]
        exact unvisited_neighbors_eq_find grid row col rest hrest

/-- C4: on a shuffled permutation of the four directions,
`unvisited_neighbors` returns the first direction (in shuffled order)
whose stepped cell is inside `[0, MAZE_SIZE)` on both axes and unvisited,
and returns `Center` exactly when none of the four qualifies. -/
theorem unvisited_neighbors_first_unvisited (grid : Grid) (row col : Nat)
    (dirs : List NeighborDir) (hperm : dirs.Perm baseDirs) :
    unvisited_neighbors grid row col dirs
        = some ((dirs.find? (dirOk grid row col)).getD .Center)
    ∧ (unvisited_neighbors grid row col dirs = some NeighborDir.Center
        ↔ ∀ d ∈ baseDirs, dirOk grid row col d = false)
    ∧ (∀ (d : NeighborDir) (dr dc : Int), dirDelta d = some (dr, dc) →
        (dirOk grid row col d = true
          ↔ (0 ≤ (row : Int) + dr ∧ (row : Int) + dr < (MAZE_SIZE : Int)
              ∧ 0 ≤ (col : Int) + dc ∧ (col : Int) + dc < (MAZE_SIZE : Int)
              ∧ (grid ((row : Int) + dr).toNat ((col : Int) + dc).toNat).visited = false))) := by
  have hcen : NeighborDir.Center ∉ dirs := fun hmem =>
    (by decide : NeighborDir.Center ∉ baseDirs) (hperm.mem_iff.mp hmem)
  have heq := unvisited_neighbors_eq_find grid row col dirs hcen
  refine ⟨heq, ?_, ?_⟩
  · rw [heq]
    constructor
    · intro hsome d hd
      cases hf : dirs.find? (dirOk grid row col) with
      | none =>
          have hnone := List.find?_eq_none.mp hf
          simpa using hnone d (hperm.mem_iff.mpr hd)
      | some d' =>
          rw [hf] at hsome
          have hd' : d' ∈ dirs := List.mem_of_find?_eq_some hf
          have hdc : d' = NeighborDir.Center := by simpa using hsome
          exact absurd (hdc ▸ hd') hcen
    · intro hall
      have hnone : dirs.find? (dirOk grid row col) = none :=
        List.find?_eq_none.mpr fun d hd => by
          simp [hall d (hperm.mem_iff.mp hd)]
      rw [hnone]; rfl
  · intro d dr dc hd
    simp only [dirOk, hd, in_bound, Bool.and_eq_true, decide_eq_true_eq, Bool.not_eq_true']
    constructor
    · rintro ⟨⟨⟨h1, h2⟩, h3, h4⟩, h5⟩; exact ⟨h1, h2, h3, h4, h5⟩
    · rintro ⟨h1, h2, h3, h4, h5⟩; exact ⟨⟨⟨h1, h2⟩, h3, h4⟩, h5⟩

/-- C4 witness. -/
theorem unvisited_neighbors_first_unvisited_witness :
    unvisited_neighbors Env.init.grid 0 0 baseDirs
      = some ((baseDirs.find? (dirOk Env.init.grid 0 0)).getD .Center) :=
  (unvisited_neighbors_first_unvisited Env.init.grid 0 0 baseDirs (List.Perm.refl _)).1

/-! ### Renderer (`fill_rect`, `draw_maze`) -/

/-- `const SOLID_COLOR: u32 = 0x32A852`. -/
def SOLID_COLOR : Nat := 0x32A852

/-- `const OPEN_COLOR: u32 = 0x0`. -/
def OPEN_COLOR : Nat := 0x0

/-- `const OPEN_PATH_SIZE: u32 = 10`. -/
def OPEN_PATH_SIZE : Nat := 10

/-- `const BORDER_THICKNESS: u32 = 1`. -/
def BORDER_THICKNESS : Nat := 1

/-- `const IMG_SIZE: usize = MAZE_SIZE*OPEN_PATH_SIZE + (MAZE_SIZE+1)*BORDER_THICKNESS` (= 111). -/
def IMG_SIZE : Nat := MAZE_SIZE * OPEN_PATH_SIZE + (MAZE_SIZE + 1) * BORDER_THICKNESS

/-- The pixel buffer `[[u32; IMG_SIZE]; IMG_SIZE]`, indexed `pixels y x`. -/
abbrev Pixels := Nat → Nat → Nat

/-- `fn fill_rect`: `none` models a failure of one of its two `assert!`s;
on success every pixel with `ry ≤ y < ry+rh`, `rx ≤ x < rx+rw` is set to
`color` (the effect of the two nested `for` loops). -/
def fill_rect (pixels : Pixels) (rx ry rw rh color : Nat) : Option Pixels :=
  if rx + rw ≤ IMG_SIZE ∧ ry + rh ≤ IMG_SIZE then
    some (fun y x => if (ry ≤ y ∧ y < ry + rh) ∧ (rx ≤ x ∧ x < rx + rw) then color else pixels y x)
  else
    none

/-- First loop nest of `draw_maze`: for `r in 0..MAZE_SIZE`,
`c in 0..=MAZE_SIZE`, a `BORDER_THICKNESS × (OPEN_PATH_SIZE+2*BORDER)`
solid rectangle. -/
def draw_borders_v (pixels : Pixels) : Option Pixels :=
  (List.range MAZE_SIZE).foldlM (fun px r =>
    (List.range (MAZE_SIZE + 1)).foldlM (fun px2 c =>
      fill_rect px2 (c * OPEN_PATH_SIZE + c * BORDER_THICKNESS)
        (r * OPEN_PATH_SIZE + r * BORDER_THICKNESS)
        BORDER_THICKNESS (OPEN_PATH_SIZE + 2 * BORDER_THICKNESS) SOLID_COLOR) px) pixels

/-- Second loop nest of `draw_maze`: for `r in 0..=MAZE_SIZE`,
`c in 0..MAZE_SIZE`, an `(OPEN_PATH_SIZE+2*BORDER) × BORDER_THICKNESS`
solid rectangle. -/
def draw_borders_h (pixels : Pixels) : Option Pixels :=
  (List.range (MAZE_SIZE + 1)).foldlM (fun px r =>
    (List.range MAZE_SIZE).foldlM (fun px2 c =>
      fill_rect px2 (c * OPEN_PATH_SIZE + c * BORDER_THICKNESS)
        (r * OPEN_PATH_SIZE + r * BORDER_THICKNESS)
        (OPEN_PATH_SIZE + 2 * BORDER_THICKNESS) BORDER_THICKNESS SOLID_COLOR) px) pixels

/-- The per-wall `match` in the third loop of `draw_maze`. -/
def draw_wall (px : Pixels) (wall : Wall) : Option Pixels :=
  match wall.kind with
  | .Vertical =>
      fill_rect px
        (wall.target.col * OPEN_PATH_SIZE + wall.target.col * BORDER_THICKNESS)
        (wall.target.row * OPEN_PATH_SIZE + wall.target.row * BORDER_THICKNESS + BORDER_THICKNESS)
        BORDER_THICKNESS OPEN_PATH_SIZE OPEN_COLOR
  | .Horizontal =>
      fill_rect px
        (wall.target.col * OPEN_PATH_SIZE + wall.target.col * BORDER_THICKNESS + BORDER_THICKNESS)
        (wall.target.row * OPEN_PATH_SIZE + wall.target.row * BORDER_THICKNESS)
        OPEN_PATH_SIZE BORDER_THICKNESS OPEN_COLOR

/-- `fn draw_maze`: solid border lines first, then one open rectangle per
recorded wall, in list order. -/
def draw_maze (env : Env) (pixels : Pixels) : Option Pixels := do
  let px1 ← draw_borders_v pixels
  let px2 ← draw_borders_h px1
  env.removed_walls.foldlM draw_wall px2

/-! ### Image writer (`save_as_ppm`) -/

/-- The three bytes written per pixel: `(pixel >> 16) & 0xFF`,
`(pixel >> 8) & 0xFF`, `(pixel >> 0) & 0xFF`. -/
def color_components (pixel : Nat) : List Nat :=
  [(pixel >>> (8 * 2)) &&& 0xFF, (pixel >>> (8 * 1)) &&& 0xFF, (pixel >>> (8 * 0)) &&& 0xFF]

/-- The header written by `write!(file, "P6\n{} {} 255\n", IMG_SIZE, IMG_SIZE)`. -/
def ppm_header : String :=
  "P6\n" ++ toString IMG_SIZE ++ " " ++ toString IMG_SIZE ++ " 255\n"

/-- `fn save_as_ppm`, as the byte stream it writes: the ASCII header, then
for `y in 0..IMG_SIZE`, `x in 0..IMG_SIZE`, the three colour components of
`pixels[y][x]`. -/
def save_as_ppm (pixels : Pixels) : List Nat :=
  (ppm_header.data.map Char.toNat)
    ++ (List.range IMG_SIZE).flatMap (fun y =>
         (List.range IMG_SIZE).flatMap (fun x => color_components (pixels y x)))

/-! ### Renderer lemmas -/

/-- `List.foldlM` over `Option` with a step that always succeeds and
preserves an invariant. -/
theorem foldlM_option_inv {α β : Type} (f : β → α → Option β) (P : β → Prop)
    (l : List α) (b : β) (hb : P b)
    (hstep : ∀ b' a, a ∈ l → P b' → ∃ b'', f b' a = some b'' ∧ P b'') :
    ∃ b', l.foldlM f b = some b' ∧ P b' := by
  induction l generalizing b with
  | nil => exact ⟨b, rfl, hb⟩
  | cons a t ih =>
      obtain ⟨b1, hf, hP1⟩ := hstep b a (List.mem_cons_self a t) hb
      obtain ⟨b', hfold, hP'⟩ :=
        ih b1 hP1 (fun b2 a2 ha2 => hstep b2 a2 (List.mem_cons_of_mem _ ha2))
      refine ⟨b', ?_, hP'⟩
      simp only [List.foldlM, hf, Option.bind_some]
      exact hfold

theorem fill_rect_some (px : Pixels) (rx ry rw rh color : Nat)
    (h : rx + rw ≤ IMG_SIZE ∧ ry + rh ≤ IMG_SIZE) :
    fill_rect px rx ry rw rh color
      = some (fun y x =>
          if (ry ≤ y ∧ y < ry + rh) ∧ (rx ≤ x ∧ x < rx + rw) then color else px y x) := by
  rw [fill_rect, if_pos h]

/-- The first border loop nest always succeeds and only ever paints
`SOLID_COLOR`. -/
theorem draw_borders_v_spec (pixels : Pixels) :
    ∃ px, draw_borders_v pixels = some px
      ∧ ∀ y x, px y x = SOLID_COLOR ∨ px y x = pixels y x := by
  unfold draw_borders_v
  refine foldlM_option_inv _ (fun px : Pixels => ∀ y x, px y x = SOLID_COLOR ∨ px y x = pixels y x)
    _ _ (fun y x => Or.inr rfl) ?_
  intro px r hr hP
  refine foldlM_option_inv _ (fun px2 : Pixels => ∀ y x, px2 y x = SOLID_COLOR ∨ px2 y x = pixels y x)
    _ _ hP ?_
  intro px2 c hc hP2
  have hr' : r < MAZE_SIZE := List.mem_range.mp hr
  have hc' : c < MAZE_SIZE + 1 := List.mem_range.mp hc
  refine ⟨_, fill_rect_some px2 _ _ _ _ _ ⟨?_, ?_⟩, ?_⟩
  · simp only [MAZE_SIZE, OPEN_PATH_SIZE, BORDER_THICKNESS, IMG_SIZE] at *; omega
  · simp only [MAZE_SIZE, OPEN_PATH_SIZE, BORDER_THICKNESS, IMG_SIZE] at *; omega
  · intro y x
    dsimp only
    split
    · exact Or.inl rfl
    · exact hP2 y x

/-- The second border loop nest always succeeds and only ever paints
`SOLID_COLOR`. -/
theorem draw_borders_h_spec (pixels : Pixels) :
    ∃ px, draw_borders_h pixels = some px
      ∧ ∀ y x, px y x = SOLID_COLOR ∨ px y x = pixels y x := by
  unfold draw_borders_h
  refine foldlM_option_inv _ (fun px : Pixels => ∀ y x, px y x = SOLID_COLOR ∨ px y x = pixels y x)
    _ _ (fun y x => Or.inr rfl) ?_
  intro px r hr hP
  refine foldlM_option_inv _ (fun px2 : Pixels => ∀ y x, px2 y x = SOLID_COLOR ∨ px2 y x = pixels y x)
    _ _ hP ?_
  intro px2 c hc hP2
  have hr' : r < MAZE_SIZE + 1 := List.mem_range.mp hr
  have hc' : c < MAZE_SIZE := List.mem_range.mp hc
  refine ⟨_, fill_rect_some px2 _ _ _ _ _ ⟨?_, ?_⟩, ?_⟩
  · simp only [MAZE_SIZE, OPEN_PATH_SIZE, BORDER_THICKNESS, IMG_SIZE] at *; omega
  · simp only [MAZE_SIZE, OPEN_PATH_SIZE, BORDER_THICKNESS, IMG_SIZE] at *; omega
  · intro y x
    dsimp only
    split
    · exact Or.inl rfl
    · exact hP2 y x

/-- The opened pixel area of one recorded wall, exactly as issued by the
wall loop of `draw_maze`: a `BORDER_THICKNESS × OPEN_PATH_SIZE` rectangle
at the `target` cell's pixel anchor shifted one border down for a
`Vertical` wall, an `OPEN_PATH_SIZE × BORDER_THICKNESS` rectangle at the
anchor shifted one border right for a `Horizontal` wall. -/
def openRect (w : Wall) (x y : Nat) : Prop :=
  match w.kind with
  | .Vertical =>
      (w.target.row * OPEN_PATH_SIZE + w.target.row * BORDER_THICKNESS + BORDER_THICKNESS ≤ y
        ∧ y < w.target.row * OPEN_PATH_SIZE + w.target.row * BORDER_THICKNESS + BORDER_THICKNESS
              + OPEN_PATH_SIZE)
      ∧ (w.target.col * OPEN_PATH_SIZE + w.target.col * BORDER_THICKNESS ≤ x
        ∧ x < w.target.col * OPEN_PATH_SIZE + w.target.col * BORDER_THICKNESS + BORDER_THICKNESS)
  | .Horizontal =>
      (w.target.row * OPEN_PATH_SIZE + w.target.row * BORDER_THICKNESS ≤ y
        ∧ y < w.target.row * OPEN_PATH_SIZE + w.target.row * BORDER_THICKNESS + BORDER_THICKNESS)
      ∧ (w.target.col * OPEN_PATH_SIZE + w.target.col * BORDER_THICKNESS + BORDER_THICKNESS ≤ x
        ∧ x < w.target.col * OPEN_PATH_SIZE + w.target.col * BORDER_THICKNESS + BORDER_THICKNESS
              + OPEN_PATH_SIZE)

/-- The wall loop succeeds on in-range targets, and a pixel ends up with
the open colour exactly when some wall's rectangle covers it or it already
had the open colour. -/
theorem wall_fold_spec : ∀ (walls : List Wall) (B : Pixels),
    (∀ w ∈ walls, w.target.row < MAZE_SIZE ∧ w.target.col < MAZE_SIZE) →
    ∃ P, walls.foldlM draw_wall B = some P
      ∧ ∀ y x, (P y x = OPEN_COLOR ↔ (∃ w ∈ walls, openRect w x y) ∨ B y x = OPEN_COLOR)
  | [], B, _ => ⟨B, rfl, by simp⟩
  | w :: ws, B, h => by
      have hw := h w (List.mem_cons_self w ws)
      have hws : ∀ w' ∈ ws, w'.target.row < MAZE_SIZE ∧ w'.target.col < MAZE_SIZE :=
        fun w' hw' => h w' (List.mem_cons_of_mem _ hw')
      obtain ⟨B1, hB1, hB1open⟩ :
          ∃ B1, draw_wall B w = some B1
            ∧ ∀ y x, (B1 y x = OPEN_COLOR ↔ openRect w x y ∨ B y x = OPEN_COLOR) := by
        cases hk : w.kind with
        | Vertical =>
            have hfill : draw_wall B w = some (fun y x =>
                if (w.target.row * OPEN_PATH_SIZE + w.target.row * BORDER_THICKNESS + BORDER_THICKNESS ≤ y
                      ∧ y < w.target.row * OPEN_PATH_SIZE + w.target.row * BORDER_THICKNESS + BORDER_THICKNESS
                            + OPEN_PATH_SIZE)
                    ∧ (w.target.col * OPEN_PATH_SIZE + w.target.col * BORDER_THICKNESS ≤ x
                      ∧ x < w.target.col * OPEN_PATH_SIZE + w.target.col * BORDER_THICKNESS + BORDER_THICKNESS)
                  then OPEN_COLOR else B y x) := by
              simp only [draw_wall, hk]
              exact fill_rect_some _ _ _ _ _ _
                ⟨by simp only [MAZE_SIZE, OPEN_PATH_SIZE, BORDER_THICKNESS, IMG_SIZE] at *; omega,
                 by simp only [MAZE_SIZE, OPEN_PATH_SIZE, BORDER_THICKNESS, IMG_SIZE] at *; omega⟩
            refine ⟨_, hfill, ?_⟩
            intro y x
            simp only [openRect, hk]
            split
            case isTrue hcond => exact ⟨fun _ => Or.inl hcond, fun _ => rfl⟩
            case isFalse hcond =>
              exact ⟨fun hB => Or.inr hB, fun h => h.elim (fun hc => absurd hc hcond) id⟩
        | Horizontal =>
            have hfill : draw_wall B w = some (fun y x =>
                if (w.target.row * OPEN_PATH_SIZE + w.target.row * BORDER_THICKNESS ≤ y
                      ∧ y < w.target.row * OPEN_PATH_SIZE + w.target.row * BORDER_THICKNESS + BORDER_THICKNESS)
                    ∧ (w.target.col * OPEN_PATH_SIZE + w.target.col * BORDER_THICKNESS + BORDER_THICKNESS ≤ x
                      ∧ x < w.target.col * OPEN_PATH_SIZE + w.target.col * BORDER_THICKNESS + BORDER_THICKNESS
                            + OPEN_PATH_SIZE)
                  then OPEN_COLOR else B y x) := by
              simp only [draw_wall, hk]
              exact fill_rect_some _ _ _ _ _ _
                ⟨by simp only [MAZE_SIZE, OPEN_PATH_SIZE, BORDER_THICKNESS, IMG_SIZE] at *; omega,
                 by simp only [MAZE_SIZE, OPEN_PATH_SIZE, BORDER_THICKNESS, IMG_SIZE] at *; omega⟩
            refine ⟨_, hfill, ?_⟩
            intro y x
            simp only [openRect, hk]
            split
            case isTrue hcond => exact ⟨fun _ => Or.inl hcond, fun _ => rfl⟩
            case isFalse hcond =>
              exact ⟨fun hB => Or.inr hB, fun h => h.elim (fun hc => absurd hc hcond) id⟩
      obtain ⟨P, hfold, hP⟩ := wall_fold_spec ws B1 hws
      refine ⟨P, ?_, ?_⟩
      · simp only [List.foldlM, hB1, Option.bind_some]
        exact hfold
      · intro y x
        rw [hP y x, hB1open y x]
        constructor
        · rintro (⟨w', hw', hr⟩ | hc | hB)
          · exact Or.inl ⟨w', List.mem_cons_of_mem _ hw', hr⟩
          · exact Or.inl ⟨w, List.mem_cons_self w ws, hc⟩
          · exact Or.inr hB
        · rintro (⟨w', hw', hr⟩ | hB)
          · rcases List.mem_cons.mp hw' with heq | hmem
            · exact Or.inr (Or.inl (heq ▸ hr))
            · exact Or.inl ⟨w', hmem, hr⟩
          · exact Or.inr (Or.inr hB)

/-- C3 (amended): starting from a buffer holding the open colour nowhere,
the pixels that `draw_maze` leaves with the open colour `0x000000` are
exactly the union, over the recorded walls, of the 1-border-thick
`BORDER_THICKNESS × OPEN_PATH_SIZE` (`Vertical`) or
`OPEN_PATH_SIZE × BORDER_THICKNESS` (`Horizontal`) rectangle anchored at
the `target` cell's top-left pixel, offset by one border on the matching
axis (`openRect`).  For a `Vertical` wall (rows differ) that rectangle is
the `target` cell's west border — not the start/target shared boundary;
for a `Horizontal` wall (cols differ) it is the `target` cell's north
border. -/
theorem draw_maze_open_exactly_rects (env : Env) (pixels : Pixels)
    (hw : ∀ w ∈ env.removed_walls, w.target.row < MAZE_SIZE ∧ w.target.col < MAZE_SIZE)
    (hinit : ∀ y x, pixels y x ≠ OPEN_COLOR) :
    ∃ P, draw_maze env pixels = some P
      ∧ ∀ y x, (P y x = OPEN_COLOR ↔ ∃ w ∈ env.removed_walls, openRect w x y) := by
  obtain ⟨p1, h1, hp1⟩ := draw_borders_v_spec pixels
  obtain ⟨p2, h2, hp2⟩ := draw_borders_h_spec p1
  have hB : ∀ y x, p2 y x ≠ OPEN_COLOR := by
    intro y x
    rcases hp2 y x with h | h
    · rw [h]; decide
    · rw [h]
      rcases hp1 y x with h' | h'
      · rw [h']; decide
      · rw [h']; exact hinit y x
  obtain ⟨P, h3, hP⟩ := wall_fold_spec env.removed_walls p2 hw
  refine ⟨P, ?_, ?_⟩
  · simp only [draw_maze, h1, h2, Option.bind_eq_bind, Option.some_bind]
    exact h3
  · intro y x
    rw [hP y x]
    constructor
    · rintro (hc | hopen)
      · exact hc
      · exact absurd hopen (hB y x)
    · exact Or.inl

/-- C3 witness for the amended theorem. -/
theorem draw_maze_open_exactly_rects_witness :
    ∃ P, draw_maze { grid := Env.init.grid,
                     removed_walls := [{ start := { row := 0, col := 0, visited := false },
                                         target := { row := 1, col := 0, visited := false },
                                         kind := .Vertical }] } (fun _ _ => 7) = some P
      ∧ ∀ y x, (P y x = OPEN_COLOR
          ↔ ∃ w ∈ [{ start := { row := 0, col := 0, visited := false },
                     target := { row := 1, col := 0, visited := false },
                     kind := WallKind.Vertical }], openRect w x y) :=
  draw_maze_open_exactly_rects _ _ (by intro w hw; simp at hw; rw [hw]; exact ⟨by decide, by decide⟩)
    (fun y x => by decide)

/-- C3 counterexample to the claim as stated: for the wall that
`remove_wall` records for a South expansion from `(0,0)` to `(1,0)`, the
shared boundary between the two cells is the horizontal pixel segment
`y = 11`, `1 ≤ x ≤ 10`, yet after `draw_maze` the boundary pixel
`(x,y) = (1,11)` still has the wall colour while the off-boundary pixel
`(x,y) = (0,12)` (on the target cell's west border) was painted with the
open colour: the overwritten segment is not the start/target shared
boundary. -/
theorem draw_maze_wall_not_on_shared_boundary :
    remove_wall [] { row := 0, col := 0, visited := false } { row := 1, col := 0, visited := false }
      = some [{ start := { row := 0, col := 0, visited := false },
                target := { row := 1, col := 0, visited := false },
                kind := .Vertical }]
    ∧ (draw_maze { grid := Env.init.grid,
                   removed_walls := [{ start := { row := 0, col := 0, visited := false },
                                       target := { row := 1, col := 0, visited := false },
                                       kind := .Vertical }] } (fun _ _ => 7)).map
        (fun P => (P 11 1, P 12 0)) = some (SOLID_COLOR, OPEN_COLOR)
    ∧ SOLID_COLOR ≠ OPEN_COLOR := by
  refine ⟨by decide, ?_, by decide⟩
  decide

/-! ### Image-writer lemmas -/

theorem flatMap_const_length {α β : Type} (l : List α) (f : α → List β) (k : Nat)
    (h : ∀ a ∈ l, (f a).length = k) : (l.flatMap f).length = l.length * k := by
  induction l with
  | nil => simp
  | cons a t ih =>
      rw [List.flatMap_cons, List.length_append, h a (List.mem_cons_self a t),
        ih (fun b hb => h b (List.mem_cons_of_mem _ hb)), List.length_cons]
      ring

theorem flatMap_const_drop {α β : Type} :
    ∀ (l : List α) (f : α → List β) (k i : Nat),
      (∀ a ∈ l, (f a).length = k) → ∀ h : i < l.length,
      (l.flatMap f).drop (k * i) = f (l.get ⟨i, h⟩) ++ (l.drop (i + 1)).flatMap f
  | [], _, _, i, _, h => absurd h (by simp)
  | a :: t, f, k, 0, _, _ => by simp
  | a :: t, f, k, i + 1, hlen, h => by
      rw [List.flatMap_cons]
      have hdrop : (f a ++ t.flatMap f).drop (k * (i + 1))
          = (t.flatMap f).drop (k * i) := by
        have : k * (i + 1) = k + k * i := by ring
        rw [this, ← List.drop_drop, List.drop_left' (hlen a (List.mem_cons_self a t))]
      rw [hdrop, flatMap_const_drop t f k i (fun b hb => hlen b (List.mem_cons_of_mem _ hb))
        (Nat.lt_of_succ_lt_succ h)]
      rfl

theorem color_components_eq (p : Nat) :
    color_components p = [p / 2 ^ 16 % 2 ^ 8, p / 2 ^ 8 % 2 ^ 8, p % 2 ^ 8] := by
  have h255 : (0xFF : Nat) = 2 ^ 8 - 1 := by norm_num
  simp only [color_components, h255, Nat.and_pow_two_sub_one_eq_mod,
    Nat.shiftRight_eq_div_pow]
  norm_num

theorem ppm_header_eq : ppm_header = "P6\n111 111 255\n" := by decide

/-- C9: the byte stream of `save_as_ppm` is the ASCII header
`"P6\n111 111 255\n"` followed by exactly `IMG_SIZE · IMG_SIZE · 3` data
bytes, one 3-byte triple per pixel in row-major order, the triple for
pixel `(y,x)` being bits 16–23, 8–15 and 0–7 of the packed `0xRRGGBB`
value, in that (R, G, B) order. -/
theorem save_as_ppm_format (pixels : Pixels) :
    (save_as_ppm pixels).take 15 = "P6\n111 111 255\n".data.map Char.toNat
    ∧ (save_as_ppm pixels).length = 15 + IMG_SIZE * IMG_SIZE * 3
    ∧ ∀ y x, y < IMG_SIZE → x < IMG_SIZE →
        ((save_as_ppm pixels).drop (15 + 3 * (y * IMG_SIZE + x))).take 3
          = [pixels y x / 2 ^ 16 % 2 ^ 8, pixels y x / 2 ^ 8 % 2 ^ 8, pixels y x % 2 ^ 8] := by
  have hhlen : (ppm_header.data.map Char.toNat).length = 15 := by decide
  have hinner : ∀ y, ((List.range IMG_SIZE).flatMap
      (fun x => color_components (pixels y x))).length = IMG_SIZE * 3 := by
    intro y
    rw [flatMap_const_length (List.range IMG_SIZE) (fun x => color_components (pixels y x)) 3
      (fun a _ => rfl), List.length_range]
  refine ⟨?_, ?_, ?_⟩
  · rw [save_as_ppm, List.take_append_of_le_length (by rw [hhlen])]
    decide
  · rw [save_as_ppm, List.length_append, hhlen,
      flatMap_const_length _ _ (IMG_SIZE * 3) (fun y _ => hinner y), List.length_range]
    ring
  · intro y x hy hx
    rw [save_as_ppm]
    have hdropHeader :
        ((ppm_header.data.map Char.toNat) ++ (List.range IMG_SIZE).flatMap
            (fun y => (List.range IMG_SIZE).flatMap (fun x => color_components (pixels y x)))).drop
          (15 + 3 * (y * IMG_SIZE + x))
        = ((List.range IMG_SIZE).flatMap
            (fun y => (List.range IMG_SIZE).flatMap (fun x => color_components (pixels y x)))).drop
          (3 * (y * IMG_SIZE + x)) := by
      rw [← List.drop_drop, List.drop_left' hhlen]
    rw [hdropHeader]
    have hsplit : 3 * (y * IMG_SIZE + x) = IMG_SIZE * 3 * y + 3 * x := by ring
    rw [hsplit, ← List.drop_drop,
      flatMap_const_drop (List.range IMG_SIZE) _ (IMG_SIZE * 3) y
        (fun a _ => hinner a) (by rwa [List.length_range])]
    rw [List.get_range]
    have hrow := flatMap_const_drop (List.range IMG_SIZE)
      (fun x => color_components (pixels y x)) 3 x (fun a _ => rfl)
      (by rwa [List.length_range])
    rw [List.get_range] at hrow
    have hx' : x < 111 := by
      simpa [IMG_SIZE, MAZE_SIZE, OPEN_PATH_SIZE, BORDER_THICKNESS] using hx
    have hxlen : 3 * x ≤ ((List.range IMG_SIZE).flatMap
        (fun x => color_components (pixels y x))).length := by
      rw [hinner y]
      simp only [IMG_SIZE, MAZE_SIZE, OPEN_PATH_SIZE, BORDER_THICKNESS]
      omega
    rw [List.drop_append_of_le_length hxlen, hrow, List.append_assoc,
      List.take_append_of_le_length (by simp [color_components]),
      List.take_of_length_le (by simp [color_components])]
    exact color_components_eq (pixels y x)

/-- C9 witness. -/
theorem save_as_ppm_format_witness :
    ((save_as_ppm (fun _ _ => 0)).drop (15 + 3 * (0 * IMG_SIZE + 0))).take 3
      = [0 / 2 ^ 16 % 2 ^ 8, 0 / 2 ^ 8 % 2 ^ 8, 0 % 2 ^ 8] :=
  (save_as_ppm_format (fun _ _ => 0)).2.2 0 0 (by decide) (by decide)

/-! ### Maze generator (`gen_maze`) -/

/-- `env.grid[r][c].visited = true`. -/
def markVisited (g : Grid) (r c : Nat) : Grid :=
  fun r' c' => if r' = r ∧ c' = c then { g r' c' with visited := true } else g r' c'

/-- Errors of the fuel-instrumented generator loop.  `fuelOut` stands for
non-termination within the given fuel; the others model the `unreachable!`
panic, a usize underflow / out-of-bounds grid index when stepping to the
target cell, and the `assert!` failure inside `remove_wall`. -/
inductive GenErr where
  | fuelOut
  | panicUnreachable
  | panicBounds
  | panicAssert
  deriving DecidableEq, Repr

/-- The generator's state: the environment fields (`grid`,
`removed_walls`), the explicit frontier stack (list head = top of the
`Stack` struct), and pure instrumentation counters used only by the
resource-bound claims: total pushes, total pops, maximal stack length. -/
structure GenState where
  grid : Grid
  removed_walls : List Wall
  stack : List Cell
  pushes : Nat
  pops : Nat
  maxStack : Nat

/-- `stack.push(val)` plus instrumentation bookkeeping. -/
def pushCell (st : GenState) (c : Cell) : GenState :=
  { st with stack := c :: st.stack,
            pushes := st.pushes + 1,
            maxStack := max st.maxStack (c :: st.stack).length }

/-- The `while stack.len() > 0` loop of `gen_maze`, with fuel.  Iteration
`k` consumes the injected shuffled direction list `σ k`.  Each iteration
pops `current`, asks `unvisited_neighbors`; on `Center` it just continues
(backtrack), otherwise it re-pushes `current`, steps to the target
coordinates (erroring if the `usize` step leaves the grid), records the
removed wall, marks the target visited and pushes it. -/
def genLoop (σ : Nat → List NeighborDir) : Nat → Nat → GenState → Except GenErr GenState
  | 0, _, st =>
      match st.stack with
      | [] => .ok st
      | _ :: _ => .error .fuelOut
  | fuel + 1, k, st =>
      match st.stack with
      | [] => .ok st
      | current :: rest =>
          let st1 : GenState := { st with stack := rest, pops := st.pops + 1 }
          let row := current.row
          let col := current.col
          match unvisited_neighbors st1.grid row col (σ k) with
          | none => .error .panicUnreachable
          | some .Center => genLoop σ fuel (k + 1) st1
          | some d =>
              let st2 := pushCell st1 current
              match dirDelta d with
              | none => .error .panicUnreachable
              | some (dr, dc) =>
                  let target_row : Int := (row : Int) + dr
                  let target_col : Int := (col : Int) + dc
                  if 0 ≤ target_row ∧ target_row < (MAZE_SIZE : Int)
                      ∧ 0 ≤ target_col ∧ target_col < (MAZE_SIZE : Int) then
                    let target := st2.grid target_row.toNat target_col.toNat
                    match remove_wall st2.removed_walls current target with
                    | none => .error .panicAssert
                    | some walls =>
                        let st3 : GenState := { st2 with removed_walls := walls }
                        let st4 : GenState :=
                          { st3 with grid := markVisited st3.grid target_row.toNat target_col.toNat }
                        genLoop σ fuel (k + 1) (pushCell st4 target)
                  else .error .panicBounds

/-- `fn gen_maze`, with the random start cell `(row, col)` and the stream
of shuffles injected.  The fuel `2·MAZE_SIZE²` is enough for every run
(proved below). -/
def gen_maze (σ : Nat → List NeighborDir) (row col : Nat) : Except GenErr GenState :=
  let env := Env.init
  let current := env.grid row col
  let st0 : GenState :=
    { grid := markVisited env.grid row col, removed_walls := env.removed_walls,
      stack := [], pushes := 0, pops := 0, maxStack := 0 }
  genLoop σ (2 * (MAZE_SIZE * MAZE_SIZE)) 0 (pushCell st0 current)

/-- The whole pipeline of `fn main` after `Env::init`: generate, draw into
the given initial buffer, serialize. -/
def render_pipeline (σ : Nat → List NeighborDir) (row col : Nat) (pixels : Pixels) :
    Option (List Nat) :=
  match gen_maze σ row col with
  | .error _ => none
  | .ok st =>
      match draw_maze { grid := st.grid, removed_walls := st.removed_walls } pixels with
      | none => none
      | some P => some (save_as_ppm P)

/-- Number of coordinates in `[0,MAZE_SIZE)²` whose cell is unvisited. -/
def unvisitedCount (g : Grid) : Nat :=
  (((Finset.range MAZE_SIZE) ×ˢ (Finset.range MAZE_SIZE)).filter
    (fun p => (g p.1 p.2).visited = false)).card

/-! ### Generator invariants -/

/-- Coordinates of a wall's `start` cell copy. -/
def startCoords (w : Wall) : Nat × Nat := (w.start.row, w.start.col)

/-- Coordinates of a wall's `target` cell copy. -/
def targetCoords (w : Wall) : Nat × Nat := (w.target.row, w.target.col)

/-- One undirected step along some recorded wall. -/
def wallStep (walls : List Wall) (p q : Nat × Nat) : Prop :=
  ∃ w ∈ walls, (startCoords w = p ∧ targetCoords w = q) ∨ (startCoords w = q ∧ targetCoords w = p)

/-- Every in-range orthogonal neighbour of `(r,c)` is visited. -/
def noUnvisitedNeighbor (g : Grid) (r c : Nat) : Prop :=
  (1 ≤ r → (g (r - 1) c).visited = true)
  ∧ (r + 1 < MAZE_SIZE → (g (r + 1) c).visited = true)
  ∧ (1 ≤ c → (g r (c - 1)).visited = true)
  ∧ (c + 1 < MAZE_SIZE → (g r (c + 1)).visited = true)

theorem markVisited_row (g : Grid) (r c r' c' : Nat) :
    ((markVisited g r c) r' c').row = (g r' c').row := by
  rw [markVisited]; split <;> rfl

theorem markVisited_col (g : Grid) (r c r' c' : Nat) :
    ((markVisited g r c) r' c').col = (g r' c').col := by
  rw [markVisited]; split <;> rfl

theorem markVisited_visited (g : Grid) (r c r' c' : Nat) :
    (((markVisited g r c) r' c').visited = true)
      ↔ ((g r' c').visited = true ∨ (r' = r ∧ c' = c)) := by
  rw [markVisited]
  split
  case isTrue h => simp [h]
  case isFalse h => simp [h]

theorem markVisited_mono (g : Grid) (r c r' c' : Nat)
    (h : (g r' c').visited = true) : ((markVisited g r c) r' c').visited = true :=
  (markVisited_visited g r c r' c').mpr (Or.inl h)

theorem markVisited_self (g : Grid) (r c : Nat) :
    ((markVisited g r c) r c).visited = true :=
  (markVisited_visited g r c r c).mpr (Or.inr ⟨rfl, rfl⟩)

theorem unvisitedCount_pos (g : Grid) (r c : Nat) (hr : r < MAZE_SIZE)
    (hc : c < MAZE_SIZE) (hv : (g r c).visited = false) : 0 < unvisitedCount g := by
  refine Finset.card_pos.mpr ⟨(r, c), ?_⟩
  simp [Finset.mem_filter, Finset.mem_product, Finset.mem_range, hr, hc, hv]

theorem unvisitedCount_markVisited (g : Grid) (r c : Nat) (hr : r < MAZE_SIZE)
    (hc : c < MAZE_SIZE) (hv : (g r c).visited = false) :
    unvisitedCount (markVisited g r c) + 1 = unvisitedCount g := by
  have hmem : (r, c) ∈ ((Finset.range MAZE_SIZE) ×ˢ (Finset.range MAZE_SIZE)).filter
      (fun p => (g p.1 p.2).visited = false) := by
    simp [Finset.mem_filter, Finset.mem_product, Finset.mem_range, hr, hc, hv]
  have hset : (((Finset.range MAZE_SIZE) ×ˢ (Finset.range MAZE_SIZE)).filter
        (fun p => ((markVisited g r c) p.1 p.2).visited = false))
      = (((Finset.range MAZE_SIZE) ×ˢ (Finset.range MAZE_SIZE)).filter
        (fun p => (g p.1 p.2).visited = false)).erase (r, c) := by
    ext p
    simp only [Finset.mem_filter, Finset.mem_erase, Finset.mem_product, Finset.mem_range,
      markVisited]
    constructor
    · rintro ⟨⟨h1, h2⟩, h3⟩
      by_cases hp : p.1 = r ∧ p.2 = c
      · rw [if_pos hp] at h3
        simp at h3
      · rw [if_neg hp] at h3
        refine ⟨?_, ⟨h1, h2⟩, h3⟩
        intro hpe
        exact hp (by rw [hpe]; exact ⟨rfl, rfl⟩)
    · rintro ⟨hne, ⟨h1, h2⟩, h3⟩
      refine ⟨⟨h1, h2⟩, ?_⟩
      have hp : ¬(p.1 = r ∧ p.2 = c) := by
        rintro ⟨ha, hb⟩
        apply hne
        cases p
        simp only at ha hb
        rw [ha, hb]
      rw [if_neg hp]
      exact h3
  have hpos : 0 < (((Finset.range MAZE_SIZE) ×ˢ (Finset.range MAZE_SIZE)).filter
      (fun p => (g p.1 p.2).visited = false)).card :=
    Finset.card_pos.mpr ⟨_, hmem⟩
  rw [unvisitedCount, unvisitedCount, hset, Finset.card_erase_of_mem hmem]
  omega

theorem unvisitedCount_eq_zero (g : Grid)
    (h : ∀ r c, r < MAZE_SIZE → c < MAZE_SIZE → (g r c).visited = true) :
    unvisitedCount g = 0 := by
  rw [unvisitedCount, Finset.card_eq_zero, Finset.filter_eq_empty_iff]
  rintro ⟨r, c⟩ hmem
  rw [Finset.mem_product, Finset.mem_range, Finset.mem_range] at hmem
  simp [h r c hmem.1 hmem.2]

theorem wallStep_mono (walls : List Wall) (w : Wall) (p q : Nat × Nat)
    (h : wallStep walls p q) : wallStep (walls ++ [w]) p q := by
  obtain ⟨w', hw', hor⟩ := h
  exact ⟨w', List.mem_append_left _ hw', hor⟩

theorem reach_mono (walls : List Wall) (w : Wall) (root p : Nat × Nat)
    (h : Relation.ReflTransGen (wallStep walls) root p) :
    Relation.ReflTransGen (wallStep (walls ++ [w])) root p := by
  induction h with
  | refl => exact .refl
  | tail _ hstep ih => exact .tail ih (wallStep_mono _ _ _ _ hstep)

/-- The generator's loop invariant, for the run started at `root`. -/
structure Inv (root : Nat × Nat) (st : GenState) : Prop where
  stack_range : ∀ cl ∈ st.stack, cl.row < MAZE_SIZE ∧ cl.col < MAZE_SIZE
  stack_visited : ∀ cl ∈ st.stack, (st.grid cl.row cl.col).visited = true
  grid_coords : ∀ r c, (st.grid r c).row = r ∧ (st.grid r c).col = c
  stack_nodup : (st.stack.map (fun cl => (cl.row, cl.col))).Nodup
  root_range : root.1 < MAZE_SIZE ∧ root.2 < MAZE_SIZE
  root_visited : (st.grid root.1 root.2).visited = true
  walls_range : ∀ w ∈ st.removed_walls,
      w.start.row < MAZE_SIZE ∧ w.start.col < MAZE_SIZE
        ∧ w.target.row < MAZE_SIZE ∧ w.target.col < MAZE_SIZE
  walls_visited : ∀ w ∈ st.removed_walls,
      (st.grid w.start.row w.start.col).visited = true
        ∧ (st.grid w.target.row w.target.col).visited = true
  walls_ne : ∀ w ∈ st.removed_walls, startCoords w ≠ targetCoords w
  targets_nodup : (st.removed_walls.map targetCoords).Nodup
  root_not_target : ∀ w ∈ st.removed_walls, targetCoords w ≠ root
  wall_count : st.removed_walls.length + 1 + unvisitedCount st.grid = MAZE_SIZE * MAZE_SIZE
  stack_bound : st.stack.length + unvisitedCount st.grid ≤ MAZE_SIZE * MAZE_SIZE
  reach : ∀ r c, r < MAZE_SIZE → c < MAZE_SIZE → (st.grid r c).visited = true →
      Relation.ReflTransGen (wallStep st.removed_walls) root (r, c)
  frontier : ∀ r c, r < MAZE_SIZE → c < MAZE_SIZE → (st.grid r c).visited = true →
      ((∃ cl ∈ st.stack, cl.row = r ∧ cl.col = c) ∨ noUnvisitedNeighbor st.grid r c)
  visited_cover : ∀ r c, r < MAZE_SIZE → c < MAZE_SIZE → (st.grid r c).visited = true →
      ((r, c) = root ∨ ∃ w ∈ st.removed_walls, targetCoords w = (r, c))
  parent_earlier : ∀ pre w suf, st.removed_walls = pre ++ w :: suf →
      startCoords w = root ∨ ∃ w2 ∈ pre, targetCoords w2 = startCoords w
  stats_pp : st.pushes = st.pops + st.stack.length
  stats_pw : st.pushes = 1 + 2 * st.removed_walls.length
  stats_max : st.maxStack ≤ MAZE_SIZE * MAZE_SIZE

/-- If all four directions fail the `dirOk` test from an in-range cell,
every in-range neighbour is visited. -/
theorem noUnvisited_of_dirOk_false (g : Grid) (r c : Nat)
    (hr : r < MAZE_SIZE) (hc : c < MAZE_SIZE)
    (h : ∀ d ∈ baseDirs, dirOk g r c d = false) : noUnvisitedNeighbor g r c := by
  have hr10 : r < 10 := hr
  have hc10 : c < 10 := hc
  refine ⟨?_, ?_, ?_, ?_⟩
  · intro h1
    by_contra hne
    have hfalse : (g (r - 1) c).visited = false := by
      cases hvis : (g (r - 1) c).visited
      · rfl
      · exact absurd hvis hne
    have : dirOk g r c .North = true := by
      simp only [dirOk, dirDelta, in_bound, Bool.and_eq_true, decide_eq_true_eq,
        Bool.not_eq_true']
      have htn : ((r : Int) + (-1)).toNat = r - 1 := by omega
      have hcn : ((c : Int) + 0).toNat = c := by omega
      rw [htn, hcn]
      refine ⟨⟨⟨by omega, by simp only [MAZE_SIZE]; omega⟩, by omega,
        by simp only [MAZE_SIZE]; omega⟩, hfalse⟩
    rw [h .North (by decide)] at this
    exact Bool.noConfusion this
  · intro h1
    by_contra hne
    have hfalse : (g (r + 1) c).visited = false := by
      cases hvis : (g (r + 1) c).visited
      · rfl
      · exact absurd hvis hne
    have : dirOk g r c .South = true := by
      simp only [dirOk, dirDelta, in_bound, Bool.and_eq_true, decide_eq_true_eq,
        Bool.not_eq_true']
      have htn : ((r : Int) + 1).toNat = r + 1 := by omega
      have hcn : ((c : Int) + 0).toNat = c := by omega
      rw [htn, hcn]
      simp only [MAZE_SIZE] at h1 ⊢
      refine ⟨⟨⟨by omega, by omega⟩, by omega, by omega⟩, hfalse⟩
    rw [h .South (by decide)] at this
    exact Bool.noConfusion this
  · intro h1
    by_contra hne
    have hfalse : (g r (c - 1)).visited = false := by
      cases hvis : (g r (c - 1)).visited
      · rfl
      · exact absurd hvis hne
    have : dirOk g r c .West = true := by
      simp only [dirOk, dirDelta, in_bound, Bool.and_eq_true, decide_eq_true_eq,
        Bool.not_eq_true']
      have htn : ((r : Int) + 0).toNat = r := by omega
      have hcn : ((c : Int) + (-1)).toNat = c - 1 := by omega
      rw [htn, hcn]
      simp only [MAZE_SIZE] at hr10 ⊢
      refine ⟨⟨⟨by omega, by omega⟩, by omega, by omega⟩, hfalse⟩
    rw [h .West (by decide)] at this
    exact Bool.noConfusion this
  · intro h1
    by_contra hne
    have hfalse : (g r (c + 1)).visited = false := by
      cases hvis : (g r (c + 1)).visited
      · rfl
      · exact absurd hvis hne
    have : dirOk g r c .East = true := by
      simp only [dirOk, dirDelta, in_bound, Bool.and_eq_true, decide_eq_true_eq,
        Bool.not_eq_true']
      have htn : ((r : Int) + 0).toNat = r := by omega
      have hcn : ((c : Int) + 1).toNat = c + 1 := by omega
      rw [htn, hcn]
      simp only [MAZE_SIZE] at h1 ⊢
      refine ⟨⟨⟨by omega, by omega⟩, by omega, by omega⟩, hfalse⟩
    rw [h .East (by decide)] at this
    exact Bool.noConfusion this

/-- Backtrack step: popping a cell with no unvisited neighbour preserves
the invariant. -/
theorem backtrack_inv (root : Nat × Nat) (st : GenState) (hInv : Inv root st)
    (current : Cell) (rest : List Cell) (hstack : st.stack = current :: rest)
    (hno : noUnvisitedNeighbor st.grid current.row current.col) :
    Inv root { st with stack := rest, pops := st.pops + 1 } := by
  obtain ⟨sr, sv, gc, snd, rr, rv, wr, wv, wn, tn, rnt, wc, sb, rch, fr, vc, pe, pp, pw, sm⟩ := hInv
  rw [hstack] at sr sv snd sb pp
  refine ⟨?_, ?_, gc, ?_, rr, rv, wr, wv, wn, tn, rnt, wc, ?_, rch, ?_, vc, pe, ?_, pw, sm⟩
  · exact fun cl hcl => sr cl (List.mem_cons_of_mem _ hcl)
  · exact fun cl hcl => sv cl (List.mem_cons_of_mem _ hcl)
  · exact (List.nodup_cons.mp snd).2
  · simp only [List.length_cons] at sb
    simp only
    omega
  · intro r c hr hc hvis
    rcases fr r c hr hc hvis with ⟨cl, hcl, hco⟩ | hnone
    · rw [hstack] at hcl
      rcases List.mem_cons.mp hcl with heq | hmem
      · right
        rw [← hco.1, ← hco.2, heq]
        exact hno
      · exact Or.inl ⟨cl, hmem, hco⟩
    · exact Or.inr hnone
  · simp only [List.length_cons] at pp
    simp only
    omega

theorem append_singleton_inj {α : Type} {l₁ l₂ : List α} {a b : α}
    (h : l₁ ++ [a] = l₂ ++ [b]) : l₁ = l₂ ∧ a = b := by
  have h1 := congrArg List.reverse h
  simp only [List.reverse_append, List.reverse_cons, List.reverse_nil, List.nil_append,
    List.cons_append, List.singleton_append] at h1
  injection h1 with h2 h3
  refine ⟨?_, h2⟩
  have := congrArg List.reverse h3
  simpa using this

theorem noUnvisited_mono (g : Grid) (a b r c : Nat)
    (h : noUnvisitedNeighbor g r c) : noUnvisitedNeighbor (markVisited g a b) r c :=
  ⟨fun h1 => markVisited_mono _ _ _ _ _ (h.1 h1),
   fun h1 => markVisited_mono _ _ _ _ _ (h.2.1 h1),
   fun h1 => markVisited_mono _ _ _ _ _ (h.2.2.1 h1),
   fun h1 => markVisited_mono _ _ _ _ _ (h.2.2.2 h1)⟩

/-- Expansion step: `remove_wall` succeeds and appends exactly one record,
and pushing back `current`, marking the fresh in-range target `(tr,tc)`
visited and pushing it preserves the invariant. -/
theorem expand_inv (root : Nat × Nat) (st : GenState) (hInv : Inv root st)
    (current : Cell) (rest : List Cell) (hstack : st.stack = current :: rest)
    (tr tc : Nat) (htr : tr < MAZE_SIZE) (htc : tc < MAZE_SIZE)
    (hunvis : (st.grid tr tc).visited = false) :
    ∃ wNew, remove_wall st.removed_walls current (st.grid tr tc)
        = some (st.removed_walls ++ [wNew])
      ∧ wNew.start = current ∧ wNew.target = st.grid tr tc
      ∧ unvisitedCount (markVisited st.grid tr tc) + 1 = unvisitedCount st.grid
      ∧ Inv root (pushCell
          { grid := markVisited st.grid tr tc,
            removed_walls := st.removed_walls ++ [wNew],
            stack := current :: rest,
            pushes := st.pushes + 1,
            pops := st.pops + 1,
            maxStack := max st.maxStack (current :: rest).length }
          (st.grid tr tc)) := by
  obtain ⟨sr, sv, gc, snd, rr, rv, wr, wv, wn, tn, rnt, wc, sb, rch, fr, vc, pe, pp, pw, sm⟩ := hInv
  have hcur_mem : current ∈ st.stack := hstack ▸ List.mem_cons_self current rest
  have hcur_range := sr current hcur_mem
  have hcur_vis := sv current hcur_mem
  have htgt_row : (st.grid tr tc).row = tr := (gc tr tc).1
  have htgt_col : (st.grid tr tc).col = tc := (gc tr tc).2
  have hne2 : ¬(current.row = tr ∧ current.col = tc) := by
    rintro ⟨h1, h2⟩
    rw [h1, h2] at hcur_vis
    rw [hcur_vis] at hunvis
    exact Bool.noConfusion hunvis
  have hne2' : ¬(current.row = (st.grid tr tc).row ∧ current.col = (st.grid tr tc).col) := by
    rw [htgt_row, htgt_col]; exact hne2
  have hrw := remove_wall_eq st.removed_walls current (st.grid tr tc) hcur_range.2
    (by rw [htgt_col]; exact htc) hne2'
  have hu := unvisitedCount_markVisited st.grid tr tc htr htc hunvis
  refine ⟨_, hrw, rfl, rfl, hu, ?_⟩
  set wNew : Wall := { start := current, target := st.grid tr tc,
                       kind := if current.row ≠ (st.grid tr tc).row then .Vertical
                               else .Horizontal } with hwNew
  have hwNew_tc : targetCoords wNew = (tr, tc) := by
    show ((st.grid tr tc).row, (st.grid tr tc).col) = (tr, tc)
    rw [htgt_row, htgt_col]
  have hwNew_sc : startCoords wNew = (current.row, current.col) := rfl
  have hstklen : st.stack.length = rest.length + 1 := by rw [hstack]; rfl
  have hupos : 0 < unvisitedCount st.grid := unvisitedCount_pos st.grid tr tc htr htc hunvis
  simp only [pushCell]
  refine { stack_range := ?_, stack_visited := ?_, grid_coords := ?_, stack_nodup := ?_,
           root_range := rr, root_visited := ?_, walls_range := ?_, walls_visited := ?_,
           walls_ne := ?_, targets_nodup := ?_, root_not_target := ?_, wall_count := ?_,
           stack_bound := ?_, reach := ?_, frontier := ?_, visited_cover := ?_,
           parent_earlier := ?_, stats_pp := ?_, stats_pw := ?_, stats_max := ?_ }
  · intro cl hcl
    simp only at hcl
    rcases List.mem_cons.mp hcl with heq | hmem
    · rw [heq, htgt_row, htgt_col]; exact ⟨htr, htc⟩
    · exact sr cl (hstack ▸ hmem)
  · intro cl hcl
    simp only at hcl ⊢
    rcases List.mem_cons.mp hcl with heq | hmem
    · rw [heq, htgt_row, htgt_col]; exact markVisited_self st.grid tr tc
    · exact markVisited_mono _ _ _ _ _ (sv cl (hstack ▸ hmem))
  · intro r c
    simp only
    rw [markVisited_row, markVisited_col]
    exact gc r c
  · simp only
    rw [show ((st.grid tr tc) :: current :: rest).map (fun cl => (cl.row, cl.col))
          = ((st.grid tr tc).row, (st.grid tr tc).col)
              :: (current :: rest).map (fun cl => (cl.row, cl.col)) from rfl]
    rw [htgt_row, htgt_col, List.nodup_cons]
    refine ⟨?_, hstack ▸ snd⟩
    intro hmem
    obtain ⟨cl, hcl, hco⟩ := List.mem_map.mp hmem
    have hclv := sv cl (hstack ▸ hcl)
    injection hco with h1 h2
    rw [h1, h2] at hclv
    rw [hclv] at hunvis
    exact Bool.noConfusion hunvis
  · simp only
    exact markVisited_mono _ _ _ _ _ rv
  · intro w hw
    simp only at hw
    rcases List.mem_append.mp hw with hold | hnew
    · exact wr w hold
    · rw [List.mem_singleton.mp hnew]
      exact ⟨hcur_range.1, hcur_range.2, by rw [htgt_row]; exact htr, by rw [htgt_col]; exact htc⟩
  · intro w hw
    simp only at hw ⊢
    rcases List.mem_append.mp hw with hold | hnew
    · exact ⟨markVisited_mono _ _ _ _ _ (wv w hold).1, markVisited_mono _ _ _ _ _ (wv w hold).2⟩
    · rw [List.mem_singleton.mp hnew]
      constructor
      · exact markVisited_mono _ _ _ _ _ hcur_vis
      · show ((markVisited st.grid tr tc) (st.grid tr tc).row (st.grid tr tc).col).visited = true
        rw [htgt_row, htgt_col]
        exact markVisited_self st.grid tr tc
  · intro w hw
    simp only at hw
    rcases List.mem_append.mp hw with hold | hnew
    · exact wn w hold
    · rw [List.mem_singleton.mp hnew, hwNew_sc, hwNew_tc]
      intro h
      injection h with h1 h2
      exact hne2 ⟨h1, h2⟩
  · simp only
    rw [List.map_append]
    simp only [List.map_cons, List.map_nil]
    rw [List.nodup_append]
    refine ⟨tn, List.nodup_singleton _, ?_⟩
    intro a ha hb
    rw [List.mem_singleton] at hb
    obtain ⟨w, hw, hwt⟩ := List.mem_map.mp ha
    rw [hb, hwNew_tc] at hwt
    have hwv := (wv w hw).2
    injection hwt with h1 h2
    rw [h1, h2] at hwv
    rw [hwv] at hunvis
    exact Bool.noConfusion hunvis
  · intro w hw
    simp only at hw
    rcases List.mem_append.mp hw with hold | hnew
    · exact rnt w hold
    · rw [List.mem_singleton.mp hnew, hwNew_tc]
      intro h
      have hco : root.1 = tr ∧ root.2 = tc := by rw [← h]; exact ⟨rfl, rfl⟩
      rw [hco.1, hco.2] at rv
      rw [rv] at hunvis
      exact Bool.noConfusion hunvis
  · simp only [List.length_append, List.length_cons, List.length_nil]
    omega
  · simp only [List.length_cons]
    rw [hstklen] at sb
    omega
  · intro r c hr hc hvis
    simp only at hvis ⊢
    rcases (markVisited_visited st.grid tr tc r c).mp hvis with hold | ⟨h1, h2⟩
    · exact reach_mono _ _ _ _ (rch r c hr hc hold)
    · rw [h1, h2]
      refine Relation.ReflTransGen.tail (reach_mono _ _ _ _
        (rch current.row current.col hcur_range.1 hcur_range.2 hcur_vis)) ?_
      exact ⟨wNew, List.mem_append_right _ (List.mem_singleton_self _),
        Or.inl ⟨hwNew_sc, hwNew_tc⟩⟩
  · intro r c hr hc hvis
    simp only at hvis ⊢
    rcases (markVisited_visited st.grid tr tc r c).mp hvis with hold | ⟨h1, h2⟩
    · rcases fr r c hr hc hold with ⟨cl, hcl, hco⟩ | hnone
      · exact Or.inl ⟨cl, List.mem_cons_of_mem _ (hstack ▸ hcl), hco⟩
      · exact Or.inr (noUnvisited_mono _ _ _ _ _ hnone)
    · exact Or.inl ⟨st.grid tr tc, List.mem_cons_self _ _,
        by rw [htgt_row, h1], by rw [htgt_col, h2]⟩
  · intro r c hr hc hvis
    simp only at hvis ⊢
    rcases (markVisited_visited st.grid tr tc r c).mp hvis with hold | ⟨h1, h2⟩
    · rcases vc r c hr hc hold with hroot | ⟨w, hw, hwt⟩
      · exact Or.inl hroot
      · exact Or.inr ⟨w, List.mem_append_left _ hw, hwt⟩
    · refine Or.inr ⟨wNew, List.mem_append_right _ (List.mem_singleton_self _), ?_⟩
      rw [hwNew_tc, h1, h2]
  · intro pre w suf hsplit
    simp only at hsplit
    rcases List.eq_nil_or_concat suf with hnil | ⟨s, b, hsb⟩
    · subst hnil
      obtain ⟨hpre, hwn⟩ := append_singleton_inj hsplit
      subst hpre
      rw [← hwn, hwNew_sc]
      rcases vc current.row current.col hcur_range.1 hcur_range.2 hcur_vis with hroot | hcov
      · exact Or.inl hroot
      · exact Or.inr hcov
    · subst hsb
      have h2 : st.removed_walls ++ [wNew] = (pre ++ w :: s) ++ [b] := by
        rw [hsplit]; simp
      exact pe pre w s (append_singleton_inj h2).1
  · simp only [List.length_cons]
    rw [hstklen] at pp
    omega
  · simp only [List.length_append, List.length_cons, List.length_nil]
    omega
  · simp only [List.length_cons]
    rw [hstklen] at sb
    refine max_le (max_le sm ?_) ?_ <;> omega

/-- Run the expansion step for a direction with offset `(dr, dc)` passing
the `dirOk` test, then the rest of the loop. -/
theorem expand_run (σ : Nat → List NeighborDir) (root : Nat × Nat) (fuel k : Nat)
    (st : GenState) (hInv : Inv root st)
    (current : Cell) (rest : List Cell) (hstack : st.stack = current :: rest)
    (dr dc : Int)
    (hok : (0 ≤ (current.row : Int) + dr ∧ (current.row : Int) + dr < (MAZE_SIZE : Int))
          ∧ (0 ≤ (current.col : Int) + dc ∧ (current.col : Int) + dc < (MAZE_SIZE : Int))
          ∧ (st.grid ((current.row : Int) + dr).toNat
              ((current.col : Int) + dc).toNat).visited = false)
    (ih : ∀ k2 st2, Inv root st2 → 2 * unvisitedCount st2.grid + st2.stack.length ≤ fuel →
        ∃ stF, genLoop σ fuel k2 st2 = .ok stF ∧ Inv root stF ∧ stF.stack = [])
    (hm : 2 * unvisitedCount st.grid + st.stack.length ≤ fuel + 1) :
    ∃ wNew stF,
      remove_wall st.removed_walls current
          (st.grid ((current.row : Int) + dr).toNat ((current.col : Int) + dc).toNat)
        = some (st.removed_walls ++ [wNew])
      ∧ genLoop σ fuel (k + 1) (pushCell
          { grid := markVisited st.grid ((current.row : Int) + dr).toNat
              ((current.col : Int) + dc).toNat,
            removed_walls := st.removed_walls ++ [wNew],
            stack := current :: rest,
            pushes := st.pushes + 1, pops := st.pops + 1,
            maxStack := max st.maxStack (current :: rest).length }
          (st.grid ((current.row : Int) + dr).toNat ((current.col : Int) + dc).toNat))
        = .ok stF
      ∧ Inv root stF ∧ stF.stack = [] := by
  have htr : ((current.row : Int) + dr).toNat < MAZE_SIZE := by
    simp only [MAZE_SIZE] at hok ⊢
    omega
  have htc : ((current.col : Int) + dc).toNat < MAZE_SIZE := by
    simp only [MAZE_SIZE] at hok ⊢
    omega
  obtain ⟨wNew, hrw, _, _, hu, hInvN⟩ := expand_inv root st hInv current rest hstack
    _ _ htr htc hok.2.2
  have hlen : st.stack.length = rest.length + 1 := by rw [hstack]; rfl
  obtain ⟨stF, hrun, hInvF, hF⟩ := ih (k + 1) _ hInvN (by
    simp only [pushCell, List.length_cons]
    omega)
  exact ⟨wNew, stF, hrw, hrun, hInvF, hF⟩

/-- The generator loop terminates without a panic whenever the fuel covers
the measure `2·(unvisited cells) + (stack length)`, and the invariant
carries to the final, empty-stack state. -/
theorem genLoop_ok (σ : Nat → List NeighborDir) (hσ : ∀ n, (σ n).Perm baseDirs)
    (root : Nat × Nat) :
    ∀ fuel k st, Inv root st →
      2 * unvisitedCount st.grid + st.stack.length ≤ fuel →
      ∃ stF, genLoop σ fuel k st = .ok stF ∧ Inv root stF ∧ stF.stack = [] := by
  intro fuel
  induction fuel with
  | zero =>
      intro k st hInv hm
      have hnil : st.stack = [] := List.length_eq_zero.mp (by omega)
      refine ⟨st, ?_, hInv, hnil⟩
      simp only [genLoop, hnil]
  | succ fuel ih =>
      intro k st hInv hm
      cases hstack : st.stack with
      | nil =>
          refine ⟨st, ?_, hInv, hstack⟩
          simp only [genLoop, hstack]
      | cons current rest =>
          have hcen : NeighborDir.Center ∉ σ k := fun hmem =>
            (by decide : NeighborDir.Center ∉ baseDirs) ((hσ k).mem_iff.mp hmem)
          have hcur_mem : current ∈ st.stack := hstack ▸ List.mem_cons_self current rest
          have hcur_range := hInv.stack_range current hcur_mem
          have hres := unvisited_neighbors_eq_find st.grid current.row current.col (σ k) hcen
          have hlen : st.stack.length = rest.length + 1 := by rw [hstack]; rfl
          rw [hlen] at hm
          cases hfind : (σ k).find? (dirOk st.grid current.row current.col) with
          | none =>
              have hno : noUnvisitedNeighbor st.grid current.row current.col :=
                noUnvisited_of_dirOk_false _ _ _ hcur_range.1 hcur_range.2 (fun d hd => by
                  have hnotp := List.find?_eq_none.mp hfind d ((hσ k).mem_iff.mpr hd)
                  cases hv : dirOk st.grid current.row current.col d
                  · rfl
                  · exact absurd hv hnotp)
              have hInv1 := backtrack_inv root st hInv current rest hstack hno
              obtain ⟨stF, hrun, hInvF, hF⟩ := ih (k + 1)
                { st with stack := rest, pops := st.pops + 1 } hInv1 (by
                  simp only
                  omega)
              refine ⟨stF, ?_, hInvF, hF⟩
              simp only [genLoop, hstack]
              rw [hres, hfind]
              exact hrun
          | some d =>
              have hd_mem : d ∈ σ k := List.mem_of_find?_eq_some hfind
              have hd_ok : dirOk st.grid current.row current.col d = true :=
                List.find?_some hfind
              have hd_base : d ∈ baseDirs := (hσ k).mem_iff.mp hd_mem
              cases d with
              | Center => exact absurd hd_base (by decide)
              | North =>
                  simp only [dirOk, dirDelta, in_bound, Bool.and_eq_true,
                    decide_eq_true_eq, Bool.not_eq_true'] at hd_ok
                  obtain ⟨⟨⟨h1, h2⟩, h3, h4⟩, h5⟩ := hd_ok
                  obtain ⟨wNew, stF, hrw, hrun, hInvF, hF⟩ := expand_run σ root fuel k st hInv
                    current rest hstack (-1) 0 ⟨⟨h1, h2⟩, ⟨h3, h4⟩, h5⟩ ih (by omega)
                  refine ⟨stF, ?_, hInvF, hF⟩
                  simp only [genLoop, hstack, pushCell]
                  rw [hres, hfind, Option.getD_some]
                  simp only [dirDelta]
                  rw [if_pos ⟨h1, h2, h3, h4⟩, hrw]
                  exact hrun
              | South =>
                  simp only [dirOk, dirDelta, in_bound, Bool.and_eq_true,
                    decide_eq_true_eq, Bool.not_eq_true'] at hd_ok
                  obtain ⟨⟨⟨h1, h2⟩, h3, h4⟩, h5⟩ := hd_ok
                  obtain ⟨wNew, stF, hrw, hrun, hInvF, hF⟩ := expand_run σ root fuel k st hInv
                    current rest hstack 1 0 ⟨⟨h1, h2⟩, ⟨h3, h4⟩, h5⟩ ih (by omega)
                  refine ⟨stF, ?_, hInvF, hF⟩
                  simp only [genLoop, hstack, pushCell]
                  rw [hres, hfind, Option.getD_some]
                  simp only [dirDelta]
                  rw [if_pos ⟨h1, h2, h3, h4⟩, hrw]
                  exact hrun
              | West =>
                  simp only [dirOk, dirDelta, in_bound, Bool.and_eq_true,
                    decide_eq_true_eq, Bool.not_eq_true'] at hd_ok
                  obtain ⟨⟨⟨h1, h2⟩, h3, h4⟩, h5⟩ := hd_ok
                  obtain ⟨wNew, stF, hrw, hrun, hInvF, hF⟩ := expand_run σ root fuel k st hInv
                    current rest hstack 0 (-1) ⟨⟨h1, h2⟩, ⟨h3, h4⟩, h5⟩ ih (by omega)
                  refine ⟨stF, ?_, hInvF, hF⟩
                  simp only [genLoop, hstack, pushCell]
                  rw [hres, hfind, Option.getD_some]
                  simp only [dirDelta]
                  rw [if_pos ⟨h1, h2, h3, h4⟩, hrw]
                  exact hrun
              | East =>
                  simp only [dirOk, dirDelta, in_bound, Bool.and_eq_true,
                    decide_eq_true_eq, Bool.not_eq_true'] at hd_ok
                  obtain ⟨⟨⟨h1, h2⟩, h3, h4⟩, h5⟩ := hd_ok
                  obtain ⟨wNew, stF, hrw, hrun, hInvF, hF⟩ := expand_run σ root fuel k st hInv
                    current rest hstack 0 1 ⟨⟨h1, h2⟩, ⟨h3, h4⟩, h5⟩ ih (by omega)
                  refine ⟨stF, ?_, hInvF, hF⟩
                  simp only [genLoop, hstack, pushCell]
                  rw [hres, hfind, Option.getD_some]
                  simp only [dirDelta]
                  rw [if_pos ⟨h1, h2, h3, h4⟩, hrw]
                  exact hrun

/-- `gen_maze` (fuel `2·MAZE_SIZE²`) always returns `.ok` for a valid
random source and in-range start cell, with the invariant holding at the
final, empty-stack state. -/
theorem gen_maze_ok (σ : Nat → List NeighborDir) (hσ : ∀ n, (σ n).Perm baseDirs)
    (row col : Nat) (hrow : row < MAZE_SIZE) (hcol : col < MAZE_SIZE) :
    ∃ stF, gen_maze σ row col = .ok stF ∧ Inv (row, col) stF ∧ stF.stack = [] := by
  have hinit100 : unvisitedCount Env.init.grid = MAZE_SIZE * MAZE_SIZE := by decide
  have hu := unvisitedCount_markVisited Env.init.grid row col hrow hcol rfl
  rw [hinit100] at hu
  simp only [Env.init] at hu
  have hInv0 : Inv (row, col) (pushCell
      { grid := markVisited Env.init.grid row col,
        removed_walls := Env.init.removed_walls, stack := [],
        pushes := 0, pops := 0, maxStack := 0 } (Env.init.grid row col)) := by
    simp only [pushCell, Env.init]
    refine { stack_range := ?_, stack_visited := ?_, grid_coords := ?_, stack_nodup := ?_,
             root_range := ⟨hrow, hcol⟩, root_visited := ?_, walls_range := ?_,
             walls_visited := ?_, walls_ne := ?_, targets_nodup := ?_, root_not_target := ?_,
             wall_count := ?_, stack_bound := ?_, reach := ?_, frontier := ?_,
             visited_cover := ?_, parent_earlier := ?_, stats_pp := ?_, stats_pw := ?_,
             stats_max := ?_ }
    · intro cl hcl
      rw [List.mem_singleton.mp hcl]
      exact ⟨hrow, hcol⟩
    · intro cl hcl
      rw [List.mem_singleton.mp hcl]
      exact markVisited_self _ row col
    · intro r c
      rw [markVisited_row, markVisited_col]
      exact ⟨rfl, rfl⟩
    · simp
    · exact markVisited_self _ row col
    · intro w hw
      exact absurd hw (List.not_mem_nil w)
    · intro w hw
      exact absurd hw (List.not_mem_nil w)
    · intro w hw
      exact absurd hw (List.not_mem_nil w)
    · simp
    · intro w hw
      exact absurd hw (List.not_mem_nil w)
    · simp only [List.length_nil, MAZE_SIZE] at hu ⊢
      omega
    · simp only [List.length_singleton, MAZE_SIZE] at hu ⊢
      omega
    · intro r c hr hc hvis
      rcases (markVisited_visited _ row col r c).mp hvis with hold | ⟨h1, h2⟩
      · simp [Env.init] at hold
      · rw [h1, h2]
    · intro r c hr hc hvis
      rcases (markVisited_visited _ row col r c).mp hvis with hold | ⟨h1, h2⟩
      · simp [Env.init] at hold
      · exact Or.inl ⟨_, List.mem_singleton_self _, h1.symm, h2.symm⟩
    · intro r c hr hc hvis
      rcases (markVisited_visited _ row col r c).mp hvis with hold | ⟨h1, h2⟩
      · simp [Env.init] at hold
      · exact Or.inl (by rw [h1, h2])
    · intro pre w suf h
      exact absurd h.symm (by simp)
    · rfl
    · rfl
    · simp only [List.length_singleton]
      omega
  obtain ⟨stF, hrun, hInvF, hF⟩ := genLoop_ok σ hσ (row, col)
    (2 * (MAZE_SIZE * MAZE_SIZE)) 0 _ hInv0 (by
      simp only [pushCell, List.length_singleton, List.length_nil, Env.init, MAZE_SIZE] at hu ⊢
      omega)
  refine ⟨stF, ?_, hInvF, hF⟩
  simp only [gen_maze]
  exact hrun

/-- A nonempty, adjacency-closed set of visited cells covers the whole
grid. -/
theorem grid_closed_all (g : Grid) (r0 c0 : Nat) (hr0 : r0 < MAZE_SIZE) (hc0 : c0 < MAZE_SIZE)
    (hvis : (g r0 c0).visited = true)
    (hcl : ∀ r c, r < MAZE_SIZE → c < MAZE_SIZE → (g r c).visited = true →
      noUnvisitedNeighbor g r c) :
    ∀ r c, r < MAZE_SIZE → c < MAZE_SIZE → (g r c).visited = true := by
  have hS : ∀ r c, r < MAZE_SIZE → c < MAZE_SIZE → (g r c).visited = true →
      r + 1 < MAZE_SIZE → (g (r + 1) c).visited = true :=
    fun r c hr hc hv h1 => (hcl r c hr hc hv).2.1 h1
  have hN : ∀ r c, r < MAZE_SIZE → c < MAZE_SIZE → (g r c).visited = true →
      1 ≤ r → (g (r - 1) c).visited = true :=
    fun r c hr hc hv h1 => (hcl r c hr hc hv).1 h1
  have hW : ∀ r c, r < MAZE_SIZE → c < MAZE_SIZE → (g r c).visited = true →
      1 ≤ c → (g r (c - 1)).visited = true :=
    fun r c hr hc hv h1 => (hcl r c hr hc hv).2.2.1 h1
  have hE : ∀ r c, r < MAZE_SIZE → c < MAZE_SIZE → (g r c).visited = true →
      c + 1 < MAZE_SIZE → (g r (c + 1)).visited = true :=
    fun r c hr hc hv h1 => (hcl r c hr hc hv).2.2.2 h1
  have hup : ∀ d, r0 + d < MAZE_SIZE → (g (r0 + d) c0).visited = true := by
    intro d
    induction d with
    | zero => intro _; simpa using hvis
    | succ d ihd =>
        intro hlt
        have hdlt : r0 + d < MAZE_SIZE := by omega
        have hstep := hS (r0 + d) c0 hdlt hc0 (ihd hdlt) (by omega)
        have harith : r0 + d + 1 = r0 + (d + 1) := by omega
        rwa [harith] at hstep
  have hdown : ∀ d, d ≤ r0 → (g (r0 - d) c0).visited = true := by
    intro d
    induction d with
    | zero => intro _; simpa using hvis
    | succ d ihd =>
        intro hle
        have hstep := hN (r0 - d) c0 (by omega) hc0 (ihd (by omega)) (by omega)
        have harith : r0 - d - 1 = r0 - (d + 1) := by omega
        rwa [harith] at hstep
  have hcolall : ∀ r, r < MAZE_SIZE → (g r c0).visited = true := by
    intro r hr
    rcases le_or_lt r0 r with hge | hlt
    · have harith : r = r0 + (r - r0) := by omega
      rw [harith]
      exact hup (r - r0) (by omega)
    · have harith : r = r0 - (r0 - r) := by omega
      rw [harith]
      exact hdown (r0 - r) (by omega)
  intro r c hr hc
  have hbase := hcolall r hr
  have hright : ∀ d, c0 + d < MAZE_SIZE → (g r (c0 + d)).visited = true := by
    intro d
    induction d with
    | zero => intro _; simpa using hbase
    | succ d ihd =>
        intro hlt
        have hdlt : c0 + d < MAZE_SIZE := by omega
        have hstep := hE r (c0 + d) hr hdlt (ihd hdlt) (by omega)
        have harith : c0 + d + 1 = c0 + (d + 1) := by omega
        rwa [harith] at hstep
  have hleft : ∀ d, d ≤ c0 → (g r (c0 - d)).visited = true := by
    intro d
    induction d with
    | zero => intro _; simpa using hbase
    | succ d ihd =>
        intro hle
        have hstep := hW r (c0 - d) hr (by omega) (ihd (by omega)) (by omega)
        have harith : c0 - d - 1 = c0 - (d + 1) := by omega
        rwa [harith] at hstep
  rcases le_or_lt c0 c with hge | hlt
  · have harith : c = c0 + (c - c0) := by omega
    rw [harith]
    exact hright (c - c0) (by omega)
  · have harith : c = c0 - (c0 - c) := by omega
    rw [harith]
    exact hleft (c0 - c) (by omega)

/-- Consequences of the invariant at the final, empty-stack state. -/
theorem final_facts (root : Nat × Nat) (st : GenState) (hInv : Inv root st)
    (hnil : st.stack = []) :
    (∀ r c, r < MAZE_SIZE → c < MAZE_SIZE → (st.grid r c).visited = true)
    ∧ st.removed_walls.length = MAZE_SIZE * MAZE_SIZE - 1
    ∧ st.pushes = 1 + 2 * (MAZE_SIZE * MAZE_SIZE - 1)
    ∧ st.pops = st.pushes
    ∧ st.maxStack ≤ MAZE_SIZE * MAZE_SIZE := by
  have hclosed : ∀ r c, r < MAZE_SIZE → c < MAZE_SIZE → (st.grid r c).visited = true →
      noUnvisitedNeighbor st.grid r c := by
    intro r c hr hc hv
    rcases hInv.frontier r c hr hc hv with ⟨cl, hcl, _⟩ | hno
    · rw [hnil] at hcl
      exact absurd hcl (List.not_mem_nil cl)
    · exact hno
  have hall := grid_closed_all st.grid root.1 root.2 hInv.root_range.1 hInv.root_range.2
    hInv.root_visited hclosed
  have hzero := unvisitedCount_eq_zero st.grid hall
  have hwc := hInv.wall_count
  rw [hzero] at hwc
  have hMpos : 1 ≤ MAZE_SIZE * MAZE_SIZE := by simp [MAZE_SIZE]
  have hlen : st.removed_walls.length = MAZE_SIZE * MAZE_SIZE - 1 := by omega
  have hpp := hInv.stats_pp
  rw [hnil] at hpp
  refine ⟨hall, hlen, ?_, ?_, hInv.stats_max⟩
  · rw [hInv.stats_pw, hlen]
  · simp only [List.length_nil] at hpp
    omega

/-- C6: for a valid random source and in-range start cell no array access
goes out of bounds: `gen_maze` returns `.ok` (so the `usize` decrements /
grid indexings for North or West moves never left `[0, MAZE_SIZE)` — the
`panicBounds` branch modelling them is never taken, nor `panicAssert` or
`panicUnreachable`), and every `fill_rect` call issued by `draw_maze` on
the result satisfies both of its assertions (no `none` from the modelled
`assert!`s). -/
theorem no_out_of_bounds_access (σ : Nat → List NeighborDir)
    (hσ : ∀ n, (σ n).Perm baseDirs) (row col : Nat)
    (hrow : row < MAZE_SIZE) (hcol : col < MAZE_SIZE) :
    ∃ st, gen_maze σ row col = .ok st
      ∧ ∀ pixels : Pixels, ∃ P,
          draw_maze { grid := st.grid, removed_walls := st.removed_walls } pixels = some P := by
  obtain ⟨st, hrun, hInv, _⟩ := gen_maze_ok σ hσ row col hrow hcol
  refine ⟨st, hrun, ?_⟩
  intro pixels
  obtain ⟨p1, h1, _⟩ := draw_borders_v_spec pixels
  obtain ⟨p2, h2, _⟩ := draw_borders_h_spec p1
  obtain ⟨P, h3, _⟩ := wall_fold_spec st.removed_walls p2
    (fun w hw => ⟨(hInv.walls_range w hw).2.2.1, (hInv.walls_range w hw).2.2.2⟩)
  refine ⟨P, ?_⟩
  simp only [draw_maze, h1, h2, Option.bind_eq_bind, Option.some_bind]
  exact h3

/-- C6 witness. -/
theorem no_out_of_bounds_access_witness :
    ∃ st, gen_maze (fun _ => baseDirs) 0 0 = .ok st
      ∧ ∀ pixels : Pixels, ∃ P,
          draw_maze { grid := st.grid, removed_walls := st.removed_walls } pixels = some P :=
  no_out_of_bounds_access (fun _ => baseDirs) (fun _ => List.Perm.refl _) 0 0
    (by decide) (by decide)

/-- The observable instrumentation counters of a generator run. -/
def gen_maze_stats (σ : Nat → List NeighborDir) (row col : Nat) : Option (Nat × Nat × Nat) :=
  match gen_maze σ row col with
  | .ok st => some (st.pushes, st.pops, st.maxStack)
  | .error _ => none

set_option maxRecDepth 100000 in
/-- C7 counterexample: a complete concrete run performs 199 pushes and 199
pops — 398 stack operations in total, more than `2·MAZE_SIZE² = 200`. -/
theorem gen_maze_stack_ops_exceed_bound :
    gen_maze_stats (fun _ => baseDirs) 0 0 = some (199, 199, 100)
    ∧ 199 + 199 > 2 * (MAZE_SIZE * MAZE_SIZE) := by
  constructor
  · decide
  · decide

/-- C7 (amended): the loop always terminates (`.ok`), performing at most
`2·MAZE_SIZE²` pushes and at most `2·MAZE_SIZE²` pops (so at most
`4·MAZE_SIZE²` stack operations in total); the wall list ends at exactly
`MAZE_SIZE²−1` entries (it only ever grows, so it never exceeds that), and
the frontier stack never holds more than `MAZE_SIZE²` cells. -/
theorem gen_maze_resource_bounds (σ : Nat → List NeighborDir)
    (hσ : ∀ n, (σ n).Perm baseDirs) (row col : Nat)
    (hrow : row < MAZE_SIZE) (hcol : col < MAZE_SIZE) :
    ∃ st, gen_maze σ row col = .ok st
      ∧ st.pushes ≤ 2 * (MAZE_SIZE * MAZE_SIZE)
      ∧ st.pops ≤ 2 * (MAZE_SIZE * MAZE_SIZE)
      ∧ st.pushes + st.pops ≤ 4 * (MAZE_SIZE * MAZE_SIZE)
      ∧ st.removed_walls.length = MAZE_SIZE * MAZE_SIZE - 1
      ∧ st.maxStack ≤ MAZE_SIZE * MAZE_SIZE := by
  obtain ⟨st, hrun, hInv, hnil⟩ := gen_maze_ok σ hσ row col hrow hcol
  obtain ⟨_, hlen, hpushes, hpops, hmax⟩ := final_facts _ _ hInv hnil
  refine ⟨st, hrun, ?_, ?_, ?_, hlen, hmax⟩
  · rw [hpushes]; simp only [MAZE_SIZE]; omega
  · rw [hpops, hpushes]; simp only [MAZE_SIZE]; omega
  · rw [hpops, hpushes]; simp only [MAZE_SIZE]; omega

/-- C7 witness for the amended theorem. -/
theorem gen_maze_resource_bounds_witness :
    ∃ st, gen_maze (fun _ => baseDirs) 0 0 = .ok st
      ∧ st.pushes ≤ 2 * (MAZE_SIZE * MAZE_SIZE)
      ∧ st.pops ≤ 2 * (MAZE_SIZE * MAZE_SIZE)
      ∧ st.pushes + st.pops ≤ 4 * (MAZE_SIZE * MAZE_SIZE)
      ∧ st.removed_walls.length = MAZE_SIZE * MAZE_SIZE - 1
      ∧ st.maxStack ≤ MAZE_SIZE * MAZE_SIZE :=
  gen_maze_resource_bounds (fun _ => baseDirs) (fun _ => List.Perm.refl _) 0 0
    (by decide) (by decide)

/-- C8: with the random source injected as explicit inputs, generation and
rendering are deterministic — runs on equal seeds/sequences return equal
generator states (in particular equal removed-wall lists in the same
order) and equal serialized pixel buffers. -/
theorem pipeline_deterministic (σ1 σ2 : Nat → List NeighborDir) (r1 c1 r2 c2 : Nat)
    (p1 p2 : Pixels) (hσ : σ1 = σ2) (hr : r1 = r2) (hc : c1 = c2) (hp : p1 = p2) :
    gen_maze σ1 r1 c1 = gen_maze σ2 r2 c2
    ∧ render_pipeline σ1 r1 c1 p1 = render_pipeline σ2 r2 c2 p2 := by
  subst hσ
  subst hr
  subst hc
  subst hp
  exact ⟨rfl, rfl⟩

/-- C8 witness. -/
theorem pipeline_deterministic_witness :
    gen_maze (fun _ => baseDirs) 0 0 = gen_maze (fun _ => baseDirs) 0 0
    ∧ render_pipeline (fun _ => baseDirs) 0 0 (fun _ _ => 0)
        = render_pipeline (fun _ => baseDirs) 0 0 (fun _ _ => 0) :=
  pipeline_deterministic (fun _ => baseDirs) (fun _ => baseDirs) 0 0 0 0
    (fun _ _ => 0) (fun _ _ => 0) rfl rfl rfl rfl

/-! ### The wall graph and the spanning-tree property (C1) -/

/-- The nodes of the maze graph: the `MAZE_SIZE²` cells. -/
abbrev Idx := Fin MAZE_SIZE × Fin MAZE_SIZE

/-- Coordinates of a node. -/
def pv (u : Idx) : Nat × Nat := (u.1.val, u.2.val)

/-- The node with the given coordinates (coordinates are reduced mod
`MAZE_SIZE`; on in-range input this is the identity). -/
def toIdx (p : Nat × Nat) : Idx :=
  (⟨p.1 % MAZE_SIZE, Nat.mod_lt _ (by simp [MAZE_SIZE])⟩,
   ⟨p.2 % MAZE_SIZE, Nat.mod_lt _ (by simp [MAZE_SIZE])⟩)

theorem pv_toIdx (p : Nat × Nat) (h1 : p.1 < MAZE_SIZE) (h2 : p.2 < MAZE_SIZE) :
    pv (toIdx p) = p := by
  simp only [pv, toIdx, Nat.mod_eq_of_lt h1, Nat.mod_eq_of_lt h2]

theorem toIdx_pv (u : Idx) : toIdx (pv u) = u := by
  rcases u with ⟨⟨a, ha⟩, ⟨b, hb⟩⟩
  simp only [toIdx, pv]
  exact Prod.ext (Fin.ext (Nat.mod_eq_of_lt ha)) (Fin.ext (Nat.mod_eq_of_lt hb))

/-- The graph on the `MAZE_SIZE²` cells whose edges are the
(start, target) pairs of the recorded walls. -/
def wallGraph (walls : List Wall) : SimpleGraph Idx where
  Adj u v := u ≠ v ∧ ∃ w ∈ walls,
    (startCoords w = pv u ∧ targetCoords w = pv v)
      ∨ (startCoords w = pv v ∧ targetCoords w = pv u)
  symm := by
    rintro u v ⟨hne, w, hw, hor⟩
    exact ⟨hne.symm, w, hw, hor.symm⟩
  loopless := by
    rintro u ⟨hne, _⟩
    exact hne rfl

/-- The `i`-th support entry of a walk is its `i`-th vertex. -/
theorem walk_support_get {V : Type} {G : SimpleGraph V} {u v : V} (p : G.Walk u v) :
    ∀ (i : Nat) (h2 : i < p.support.length), p.support.get ⟨i, h2⟩ = p.getVert i := by
  induction p with
  | nil =>
      intro i h2
      simp only [SimpleGraph.Walk.support_nil, List.length_singleton] at h2
      have hi : i = 0 := by omega
      subst hi
      rfl
  | cons h q ih =>
      intro i h2
      cases i with
      | zero => rfl
      | succ i =>
          simp only [SimpleGraph.Walk.support_cons, List.length_cons] at h2
          have hq := ih i (by omega)
          simpa [SimpleGraph.Walk.support_cons, SimpleGraph.Walk.getVert_cons_succ] using hq

/-- A nonempty list has an element of maximal image. -/
theorem exists_max_image {α : Type} (l : List α) (f : α → Nat) (hne : l ≠ []) :
    ∃ m ∈ l, ∀ x ∈ l, f x ≤ f m := by
  induction l with
  | nil => exact absurd rfl hne
  | cons a t ih =>
      cases t with
      | nil =>
          refine ⟨a, List.mem_singleton_self a, ?_⟩
          intro x hx
          rw [List.mem_singleton.mp hx]
      | cons b t2 =>
          obtain ⟨m, hm, hmax⟩ := ih (by simp)
          rcases le_or_lt (f m) (f a) with hle | hlt
          · refine ⟨a, List.mem_cons_self _ _, ?_⟩
            intro x hx
            rcases List.mem_cons.mp hx with heq | hx2
            · rw [heq]
            · exact le_trans (hmax x hx2) hle
          · refine ⟨m, List.mem_cons_of_mem _ hm, ?_⟩
            intro x hx
            rcases List.mem_cons.mp hx with heq | hx2
            · rw [heq]; exact le_of_lt hlt
            · exact hmax x hx2

/-- A graph whose every edge joins a vertex to its strictly-lower-rank
parent is acyclic (any cycle would visit a maximal-rank vertex through two
distinct edges, both necessarily the edge to its parent). -/
theorem acyclic_of_parent {V : Type} [DecidableEq V] (G : SimpleGraph V)
    (par : V → V) (rank : V → Nat)
    (H : ∀ u v, G.Adj u v → (v = par u ∧ rank v < rank u) ∨ (u = par v ∧ rank u < rank v)) :
    G.IsAcyclic := by
  intro v c hc
  obtain ⟨m, hmem, hmax⟩ := exists_max_image c.support rank c.support_ne_nil
  have hc2cyc : (c.rotate hmem).IsCycle := hc.rotate hmem
  set c2 := c.rotate hmem with hc2
  have hmemsub : ∀ x ∈ c2.support, x ∈ c.support := by
    intro x hx
    rw [SimpleGraph.Walk.support_eq_cons] at hx
    rcases List.mem_cons.mp hx with heq | hx2
    · rw [heq]; exact hmem
    · have hrot := SimpleGraph.Walk.support_rotate c hmem
      have hmemtail := hrot.mem_iff.mp hx2
      rw [SimpleGraph.Walk.support_eq_cons c]
      exact List.mem_cons_of_mem _ hmemtail
  have hlen3 : 3 ≤ c2.length := hc2cyc.three_le_length
  have hnodup : c2.support.tail.Nodup :=
    ((SimpleGraph.Walk.isCycle_def c2).mp hc2cyc).2.2
  have hadj1 : G.Adj m (c2.getVert 1) := by
    have hstep := c2.adj_getVert_succ (i := 0) (by omega)
    simpa [SimpleGraph.Walk.getVert_zero] using hstep
  have hadj2 : G.Adj (c2.getVert (c2.length - 1)) m := by
    have hstep := c2.adj_getVert_succ (i := c2.length - 1) (by omega)
    have harith : c2.length - 1 + 1 = c2.length := by omega
    rw [harith] at hstep
    simpa [SimpleGraph.Walk.getVert_length] using hstep
  have hmem1 : c2.getVert 1 ∈ c2.support :=
    SimpleGraph.Walk.mem_support_iff_exists_getVert.mpr ⟨1, rfl, by omega⟩
  have hmem2 : c2.getVert (c2.length - 1) ∈ c2.support :=
    SimpleGraph.Walk.mem_support_iff_exists_getVert.mpr ⟨c2.length - 1, rfl, by omega⟩
  have hr1 : rank (c2.getVert 1) ≤ rank m := hmax _ (hmemsub _ hmem1)
  have hr2 : rank (c2.getVert (c2.length - 1)) ≤ rank m := hmax _ (hmemsub _ hmem2)
  have he1 : c2.getVert 1 = par m := by
    rcases H m _ hadj1 with ⟨h, _⟩ | ⟨_, hlt⟩
    · exact h
    · omega
  have he2 : c2.getVert (c2.length - 1) = par m := by
    rcases H _ m hadj2 with ⟨_, hlt⟩ | ⟨h, _⟩
    · omega
    · exact h
  have hlen_tail : c2.support.tail.length = c2.length := by
    have hsl := SimpleGraph.Walk.length_support c2
    simp only [List.length_tail, hsl]
    omega
  have hget1 : c2.support.tail.get ⟨0, by omega⟩ = c2.getVert 1 := by
    rw [List.get_tail, walk_support_get]
  have hget2 : c2.support.tail.get ⟨c2.length - 2, by omega⟩
      = c2.getVert (c2.length - 1) := by
    rw [List.get_tail, walk_support_get]
    congr 1
    omega
  have heq : c2.support.tail.get ⟨0, by omega⟩ = c2.support.tail.get ⟨c2.length - 2, by omega⟩ := by
    rw [hget1, hget2, he1, he2]
  have hfin := (hnodup.get_inj_iff).mp heq
  have hval := congrArg Fin.val hfin
  simp only at hval
  omega

/-- Position of the first wall whose target has the given coordinates. -/
def rankAux (p : Nat × Nat) : List Wall → Option Nat
  | [] => none
  | w :: ws => if targetCoords w = p then some 0 else (rankAux p ws).map (· + 1)

/-- Start coordinates of the first wall whose target has the given
coordinates (default: the point itself). -/
def parentOf (p : Nat × Nat) : List Wall → Nat × Nat
  | [] => p
  | w :: ws => if targetCoords w = p then startCoords w else parentOf p ws

theorem rankAux_split : ∀ (pre : List Wall) (w : Wall) (suf : List Wall),
    (((pre ++ w :: suf).map targetCoords).Nodup) →
    rankAux (targetCoords w) (pre ++ w :: suf) = some pre.length
      ∧ parentOf (targetCoords w) (pre ++ w :: suf) = startCoords w
  | [], w, suf, _ => by simp [rankAux, parentOf]
  | a :: pre, w, suf, htn => by
      have htn2 : ((a :: (pre ++ w :: suf)).map targetCoords).Nodup := by simpa using htn
      have hnotmem : targetCoords a ∉ ((pre ++ w :: suf).map targetCoords) :=
        (List.nodup_cons.mp (by simpa using htn2)).1
      have htn3 : (((pre ++ w :: suf)).map targetCoords).Nodup :=
        (List.nodup_cons.mp (by simpa using htn2)).2
      have hne : targetCoords a ≠ targetCoords w := by
        intro h
        apply hnotmem
        rw [h]
        exact List.mem_map.mpr ⟨w, by simp, rfl⟩
      have hih := rankAux_split pre w suf htn3
      constructor
      · show rankAux (targetCoords w) (a :: (pre ++ w :: suf)) = _
        rw [rankAux, if_neg hne, hih.1]
        simp
      · show parentOf (targetCoords w) (a :: (pre ++ w :: suf)) = _
        rw [parentOf, if_neg hne, hih.2]

theorem rankAux_lt : ∀ (pre suf : List Wall) (q : Nat × Nat) (w : Wall),
    w ∈ pre → targetCoords w = q →
    ∃ r, rankAux q (pre ++ suf) = some r ∧ r < pre.length
  | [], _, _, _, hmem, _ => absurd hmem (List.not_mem_nil _)
  | a :: pre, suf, q, w, hmem, htc => by
      by_cases h : targetCoords a = q
      · exact ⟨0, by rw [List.cons_append, rankAux, if_pos h], by simp⟩
      · rcases List.mem_cons.mp hmem with heq | hmem2
        · rw [← heq] at h
          exact absurd htc h
        · obtain ⟨r, hr, hlt⟩ := rankAux_lt pre suf q w hmem2 htc
          refine ⟨r + 1, ?_, by simp only [List.length_cons]; omega⟩
          rw [List.cons_append, rankAux, if_neg h, hr]
          rfl

theorem rankAux_none (q : Nat × Nat) : ∀ walls : List Wall,
    (∀ w ∈ walls, targetCoords w ≠ q) → rankAux q walls = none
  | [], _ => rfl
  | w :: ws, h => by
      rw [rankAux, if_neg (h w (List.mem_cons_self w ws)),
        rankAux_none q ws (fun w2 hw2 => h w2 (List.mem_cons_of_mem _ hw2))]
      rfl

/-- Rank of a node: 1 + position of the wall that first visited it
(0 for the root, which no wall targets). -/
def rankOf (walls : List Wall) (u : Idx) : Nat :=
  match rankAux (pv u) walls with
  | some i => i + 1
  | none => 0

/-- Parent of a node: the `start` endpoint of the wall that first visited
it. -/
def parIdx (walls : List Wall) (u : Idx) : Idx := toIdx (parentOf (pv u) walls)

/-- In the final state every wall-graph edge joins a node to its strictly
lower-ranked parent. -/
theorem wallGraph_parent_rank (root : Nat × Nat) (st : GenState) (hInv : Inv root st) :
    ∀ u v, (wallGraph st.removed_walls).Adj u v →
      (v = parIdx st.removed_walls u
          ∧ rankOf st.removed_walls v < rankOf st.removed_walls u)
      ∨ (u = parIdx st.removed_walls v
          ∧ rankOf st.removed_walls u < rankOf st.removed_walls v) := by
  have key : ∀ u v, ∀ w ∈ st.removed_walls,
      startCoords w = pv u → targetCoords w = pv v →
      u = parIdx st.removed_walls v
        ∧ rankOf st.removed_walls u < rankOf st.removed_walls v := by
    intro u v w hw hsu htv
    obtain ⟨pre, suf, hsplit⟩ := List.append_of_mem hw
    have htn : ((pre ++ w :: suf).map targetCoords).Nodup := hsplit ▸ hInv.targets_nodup
    have hr := rankAux_split pre w suf htn
    have hrank_v : rankOf st.removed_walls v = pre.length + 1 := by
      rw [rankOf, hsplit, ← htv, hr.1]
    have hpar_v : parIdx st.removed_walls v = u := by
      rw [parIdx, hsplit, ← htv, hr.2, hsu, toIdx_pv]
    refine ⟨hpar_v.symm, ?_⟩
    rw [hrank_v]
    rcases hInv.parent_earlier pre w suf hsplit with hroot | ⟨w2, hw2, htc2⟩
    · have hnone : rankAux (pv u) st.removed_walls = none := by
        apply rankAux_none
        intro w3 hw3
        rw [hsu] at hroot
        rw [hroot]
        exact hInv.root_not_target w3 hw3
      rw [rankOf, hnone]
      show 0 < pre.length + 1
      omega
    · obtain ⟨r, hrEq, hrLt⟩ := rankAux_lt pre (w :: suf) (pv u) w2 hw2 (by rw [htc2, hsu])
      rw [rankOf, hsplit, hrEq]
      show r + 1 < pre.length + 1
      omega
  rintro u v ⟨hne, w, hw, hor⟩
  rcases hor with ⟨hsu, htv⟩ | ⟨hsv, htu⟩
  · exact Or.inr (key u v w hw hsu htv)
  · exact Or.inl (key v u w hw hsv htu)

/-- Reflexive-transitive reachability along recorded walls lifts to
reachability in the wall graph. -/
theorem wallGraph_reach_lift (root : Nat × Nat) (st : GenState) (hInv : Inv root st)
    (p q : Nat × Nat) (h : Relation.ReflTransGen (wallStep st.removed_walls) p q) :
    (wallGraph st.removed_walls).Reachable (toIdx p) (toIdx q) := by
  induction h with
  | refl => exact SimpleGraph.Reachable.refl _
  | tail hsteps hstep ih =>
      obtain ⟨w, hw, hor⟩ := hstep
      have hwr := hInv.walls_range w hw
      have hwne := hInv.walls_ne w hw
      refine ih.trans (SimpleGraph.Adj.reachable ?_)
      rcases hor with ⟨hs, ht⟩ | ⟨hs, ht⟩
      · refine ⟨?_, w, hw, Or.inl ⟨?_, ?_⟩⟩
        · intro heq
          apply hwne
          rw [hs, ht]
          have := congrArg pv heq
          rw [pv_toIdx _ (by rw [← hs]; exact hwr.1) (by rw [← hs]; exact hwr.2.1),
            pv_toIdx _ (by rw [← ht]; exact hwr.2.2.1) (by rw [← ht]; exact hwr.2.2.2)] at this
          exact this
        · rw [pv_toIdx _ (by rw [← hs]; exact hwr.1) (by rw [← hs]; exact hwr.2.1)]
          exact hs
        · rw [pv_toIdx _ (by rw [← ht]; exact hwr.2.2.1) (by rw [← ht]; exact hwr.2.2.2)]
          exact ht
      · refine ⟨?_, w, hw, Or.inr ⟨?_, ?_⟩⟩
        · intro heq
          apply hwne
          rw [hs, ht]
          have := congrArg pv heq
          rw [pv_toIdx _ (by rw [← ht]; exact hwr.2.2.1) (by rw [← ht]; exact hwr.2.2.2),
            pv_toIdx _ (by rw [← hs]; exact hwr.1) (by rw [← hs]; exact hwr.2.1)] at this
          exact this.symm
        · rw [pv_toIdx _ (by rw [← hs]; exact hwr.1) (by rw [← hs]; exact hwr.2.1)]
          exact hs
        · rw [pv_toIdx _ (by rw [← ht]; exact hwr.2.2.1) (by rw [← ht]; exact hwr.2.2.2)]
          exact ht

/-- If every cell is visited in the final state, the wall graph is
connected. -/
theorem wallGraph_connected (root : Nat × Nat) (st : GenState) (hInv : Inv root st)
    (hall : ∀ r c, r < MAZE_SIZE → c < MAZE_SIZE → (st.grid r c).visited = true) :
    (wallGraph st.removed_walls).Connected := by
  rw [SimpleGraph.connected_iff]
  refine ⟨?_, ⟨(⟨0, by simp [MAZE_SIZE]⟩, ⟨0, by simp [MAZE_SIZE]⟩)⟩⟩
  intro u v
  have hu := hInv.reach u.1.val u.2.val u.1.isLt u.2.isLt (hall _ _ u.1.isLt u.2.isLt)
  have hv := hInv.reach v.1.val v.2.val v.1.isLt v.2.isLt (hall _ _ v.1.isLt v.2.isLt)
  have hru := wallGraph_reach_lift root st hInv _ _ hu
  have hrv := wallGraph_reach_lift root st hInv _ _ hv
  have hup : toIdx (u.1.val, u.2.val) = u := toIdx_pv u
  have hvp : toIdx (v.1.val, v.2.val) = v := toIdx_pv v
  rw [hup] at hru
  rw [hvp] at hrv
  exact hru.symm.trans hrv

/-- C1: for every injected random sequence and in-range random start cell,
`gen_maze` returns successfully with all `MAZE_SIZE²` cells visited,
exactly `MAZE_SIZE²−1` recorded walls, and the graph on the `MAZE_SIZE²`
cells whose edges are the (start, target) pairs of the recorded walls
connected and acyclic — a spanning tree. -/
theorem gen_maze_spanning_tree (σ : Nat → List NeighborDir)
    (hσ : ∀ n, (σ n).Perm baseDirs) (row col : Nat)
    (hrow : row < MAZE_SIZE) (hcol : col < MAZE_SIZE) :
    ∃ st, gen_maze σ row col = .ok st
      ∧ (∀ r c, r < MAZE_SIZE → c < MAZE_SIZE → (st.grid r c).visited = true)
      ∧ st.removed_walls.length = MAZE_SIZE * MAZE_SIZE - 1
      ∧ (wallGraph st.removed_walls).Connected
      ∧ (wallGraph st.removed_walls).IsAcyclic := by
  obtain ⟨st, hrun, hInv, hnil⟩ := gen_maze_ok σ hσ row col hrow hcol
  obtain ⟨hall, hlen, _, _, _⟩ := final_facts _ _ hInv hnil
  exact ⟨st, hrun, hall, hlen, wallGraph_connected _ _ hInv hall,
    acyclic_of_parent _ (parIdx st.removed_walls) (rankOf st.removed_walls)
      (wallGraph_parent_rank _ _ hInv)⟩

/-- C1 witness. -/
theorem gen_maze_spanning_tree_witness :
    ∃ st, gen_maze (fun _ => baseDirs) 0 0 = .ok st
      ∧ (∀ r c, r < MAZE_SIZE → c < MAZE_SIZE → (st.grid r c).visited = true)
      ∧ st.removed_walls.length = MAZE_SIZE * MAZE_SIZE - 1
      ∧ (wallGraph st.removed_walls).Connected
      ∧ (wallGraph st.removed_walls).IsAcyclic :=
  gen_maze_spanning_tree (fun _ => baseDirs) (fun _ => List.Perm.refl _) 0 0
    (by decide) (by decide)

end MazeRs
